import Mathlib

/-!
Verification of the OpenClaw Social OS core against its specification.

The development shallowly embeds the JavaScript core of the repository:
the graph store (node index, alias resolution, undirected adjacency), the
neighbor queries (`getNeighbors`, `shortestPath`, `commonNeighbors`), the
centrality engine (`pageRank`, `betweennessCentrality`), the community
detector (`labelPropagation`), and the feed ranker
(`calculateConnectionStrength`, `calculateMutualFriends`, feed assembly).

Modelling conventions:
* JavaScript numbers are modelled by `ℚ` (the algorithms use only field
  operations and comparisons on values where floating rounding is not the
  point of any claim).
* A possibly-missing string field is `Option String`; JavaScript
  truthiness of such a field is `jsTruthy` (`undefined`/`null` and the
  empty string are falsy).
* JavaScript `Map`/plain-object dictionaries are association lists updated
  in place (`mset` replaces the first binding of a key and otherwise
  appends, matching the insertion-order semantics of `Map` and of plain
  objects with non-numeric string keys).
* JavaScript `Set` is a duplicate-free list in insertion order (`setAdd`).
* The `while` loops of breadth-first search are embedded with an explicit
  fuel argument that provably dominates the number of iterations the
  JavaScript loop can make.
-/

namespace SocialOS

/-- Truthiness of an optional string in JavaScript: `undefined` and `""`
are falsy, every other string is truthy. -/
def jsTruthy : Option String → Bool
  | some s => !(s == "")
  | none => false

/-- JavaScript `a || b` on optional strings. -/
def jsOrS (a b : Option String) : Option String :=
  if jsTruthy a then a else b

/-- A node record.  Only the fields the core reads are modelled
(`id`, `did`, `handle`, `community`); absent fields are `none`. -/
structure Node where
  id : Option String := none
  did : Option String := none
  handle : Option String := none
  community : Option String := none
deriving DecidableEq

/-- An edge record.  Only the fields the core reads are modelled:
the endpoints and the optional `strength` used by the recommender.
The JavaScript field `from` is spelled `from_` (`from` is reserved). -/
structure Edge where
  from_ : Option String := none
  to_ : Option String := none
  strength : Option ℚ := none
deriving DecidableEq

/-- The key of a node: `node.handle || node.id || node.did`. -/
def nodeRawKey (n : Node) : Option String :=
  jsOrS n.handle (jsOrS n.id n.did)

/-- Key list of a node list: `nodes.map(n => n.handle || n.id || n.did).filter(Boolean)`. -/
def nodeKeysList (nodes : List Node) : List String :=
  nodes.filterMap (fun n =>
    match nodeRawKey n with
    | some s => if s = "" then none else some s
    | none => none)

/-- Lookup in an association list, first binding wins (JavaScript
`map.get(k)` / `obj[k]`, which never hold duplicate keys). -/
def mget {α : Type} (m : List (String × α)) (k : String) : Option α :=
  (m.find? (fun p => p.1 == k)).map Prod.snd

/-- Update of an association list: replace the first binding of `k` in
place, or append a new binding (JavaScript `map.set(k,v)` / `obj[k]=v`,
which keep insertion order). -/
def mset {α : Type} : List (String × α) → String → α → List (String × α)
  | [], k, v => [(k, v)]
  | p :: rest, k, v => if p.1 = k then (k, v) :: rest else p :: mset rest k v

/-- Key-membership test (JavaScript `map.has(k)`). -/
def mhas {α : Type} (m : List (String × α)) (k : String) : Bool :=
  m.any (fun p => p.1 == k)

/-- Insertion into a JavaScript `Set` kept as a duplicate-free list in
insertion order. -/
def setAdd (s : List String) (x : String) : List String :=
  if x ∈ s then s else s ++ [x]

/-- The adjacency index: canonical key to set of neighbour keys. -/
abbrev Adj := List (String × List String)

/-- Neighbour set of a key (`adjacency.get(k) || new Set()`). -/
def adjGet (adj : Adj) (k : String) : List String :=
  (mget adj k).getD []

/-- One `addEdge(a, b)` call of `buildAdjacency`: skip if either endpoint
is falsy, otherwise add `b` to the neighbour set of `a`. -/
def adjAddEdge (adj : Adj) (a b : Option String) : Adj :=
  if jsTruthy a && jsTruthy b then
    mset adj (a.getD "") (setAdd (adjGet adj (a.getD "")) (b.getD ""))
  else adj

/-- `buildAdjacency(edges)`: both directions of every well-formed edge. -/
def buildAdjacency (edges : List Edge) : Adj :=
  edges.foldl (fun m e => adjAddEdge (adjAddEdge m e.from_ e.to_) e.to_ e.from_) []

/-- JavaScript `s.startsWith('@')`, phrased as a comparison of the first
character so that it can be reasoned about through `String.data`. -/
def beginsAt (s : String) : Bool :=
  s.take 1 == "@"

/-- Registration of one node in the key index: `node.id || node.did`,
the handle, and the handle with its leading `"@"` removed. -/
def nodeIndexStep (m : List (String × Node)) (n : Node) : List (String × Node) :=
  let i := jsOrS n.id n.did
  let m1 := if jsTruthy i then mset m (i.getD "") n else m
  let m2 := if jsTruthy n.handle then mset m1 (n.handle.getD "") n else m1
  if jsTruthy n.handle && beginsAt (n.handle.getD "") then
    mset m2 ((n.handle.getD "").drop 1) n
  else m2

/-- `buildNodeIndex(nodes)`. -/
def buildNodeIndex (nodes : List Node) : List (String × Node) :=
  nodes.foldl nodeIndexStep []

/-- `input.replace(/^@/, '')`. -/
def stripAt (s : String) : String :=
  if beginsAt s then s.drop 1 else s

/-- `resolveNodeKey(input, nodeByKey)`: raw input, then `"@"`-prefixed,
then `"@"`-stripped, first registered form wins; falsy input resolves to
nothing. -/
def resolveNodeKey (input : String) (idx : List (String × Node)) : Option String :=
  if input = "" then none
  else if mhas idx input then some input
  else
    let withAt := if beginsAt input then input else "@" ++ input
    if mhas idx withAt then some withAt
    else if mhas idx (stripAt input) then some (stripAt input)
    else none

/-- One round of the `getNeighbors` frontier expansion: every
not-yet-visited neighbour of the frontier is appended to the visited set
and to the next frontier. -/
def expandOnce (adj : Adj) (vf : List String × List String) : List String × List String :=
  vf.2.foldl (fun vn current =>
    (adjGet adj current).foldl (fun vn2 neighbor =>
      if neighbor ∈ vn2.1 then vn2 else (vn2.1 ++ [neighbor], vn2.2 ++ [neighbor])) vn)
    (vf.1, [])

/-- The `for (let i = 0; i < hops; i++)` loop of `getNeighbors`. -/
def bfsRounds (adj : Adj) : Nat → List String × List String → List String × List String
  | 0, vf => vf
  | h + 1, vf => bfsRounds adj h (expandOnce adj vf)

/-- Membership of an optional string in a string list (JavaScript
`set.has(x)` where `x` may be `undefined`). -/
def optMem (o : Option String) (l : List String) : Bool :=
  match o with
  | some s => l.contains s
  | none => false

/-- Result shape of `getNeighbors`. -/
structure NeighborResult where
  startKey : String
  nodes : List Node
  edges : List Edge
deriving DecidableEq

/-- `getNeighbors({node, hops})` over in-memory collections: resolve the
start key (error if it does not resolve), expand for `hops` rounds, then
return the declared nodes matching a visited key and the edges whose both
endpoints are visited. -/
def getNeighbors (nodes : List Node) (edges : List Edge) (node : String) (hops : Nat) :
    Except String NeighborResult :=
  let nodeByKey := buildNodeIndex nodes
  match resolveNodeKey node nodeByKey with
  | none => .error ("Node not found: " ++ node)
  | some startKey =>
    let adj := buildAdjacency edges
    let visited := (bfsRounds adj hops ([startKey], [startKey])).1
    let rnodes := nodes.filter (fun n =>
      optMem (nodeRawKey n) visited || optMem n.id visited || optMem n.handle visited)
    let redges := edges.filter (fun e => optMem e.from_ visited && optMem e.to_ visited)
    .ok ⟨startKey, rnodes, redges⟩

/-- Search state of the `shortestPath` BFS loop. -/
structure PathState where
  queue : List String
  visited : List String
  prev : List (String × String)
deriving DecidableEq

/-- One neighbour of one dequeued key in the `shortestPath` BFS: an
unvisited neighbour is marked visited, recorded in `prev`, and enqueued. -/
def spStep (current : String) (s : PathState) (neighbor : String) : PathState :=
  if s.visited.contains neighbor then s
  else
    { queue := s.queue ++ [neighbor]
      visited := s.visited ++ [neighbor]
      prev := mset s.prev neighbor current }

/-- Expansion of one dequeued key in the `shortestPath` BFS. -/
def spExpand (adj : Adj) (current : String) (st : PathState) : PathState :=
  (adjGet adj current).foldl (spStep current) st

/-- The `while (queue.length > 0)` loop of `shortestPath`, with explicit
fuel; the loop breaks as soon as the target key is dequeued. -/
def spLoop (adj : Adj) (toKey : String) : Nat → PathState → PathState
  | 0, st => st
  | fuel + 1, st =>
    match st.queue with
    | [] => st
    | current :: rest =>
      if current = toKey then st
      else spLoop adj toKey fuel (spExpand adj current { st with queue := rest })

/-- The `while (cursor)` path-reconstruction loop of `shortestPath`:
prepend the cursor and follow `prev` until the cursor is falsy or has no
predecessor. -/
def walkPrev (prev : List (String × String)) : Nat → String → List String → List String
  | 0, _, acc => acc
  | fuel + 1, cursor, acc =>
    if cursor = "" then acc
    else
      match mget prev cursor with
      | some p => walkPrev prev fuel p (cursor :: acc)
      | none => cursor :: acc

/-- Result shape of `shortestPath`. -/
structure PathResult where
  fromKey : String
  toKey : String
  path : List String
deriving DecidableEq

/-- Fuel that dominates the number of iterations of the `shortestPath`
BFS loop: one initial enqueue plus at most one enqueue per adjacency
entry, plus one final empty-queue check. -/
def spFuel (edges : List Edge) : Nat :=
  2 * edges.length + 2

/-- `shortestPath({from, to})` over in-memory collections: resolve both
endpoints (error naming the first unresolved input), run BFS, then
reconstruct the path from `prev`, or return an empty path if the target
was never visited. -/
def shortestPath (nodes : List Node) (edges : List Edge) (fromIn toIn : String) :
    Except String PathResult :=
  let nodeByKey := buildNodeIndex nodes
  match resolveNodeKey fromIn nodeByKey, resolveNodeKey toIn nodeByKey with
  | none, _ => .error ("Node not found: " ++ fromIn)
  | some _, none => .error ("Node not found: " ++ toIn)
  | some fromKey, some toKey =>
    let adj := buildAdjacency edges
    let fin := spLoop adj toKey (spFuel edges) ⟨[fromKey], [fromKey], []⟩
    if fin.visited.contains toKey then
      .ok ⟨fromKey, toKey, walkPrev fin.prev (fin.prev.length + 1) toKey []⟩
    else .ok ⟨fromKey, toKey, []⟩

/-- Result shape of `commonNeighbors`. -/
structure CommonResult where
  aKey : String
  bKey : String
  common : List String
deriving DecidableEq

/-- `commonNeighbors({a, b})`: the intersection of the two adjacency
sets, in the iteration order of the first. -/
def commonNeighbors (nodes : List Node) (edges : List Edge) (a b : String) :
    Except String CommonResult :=
  let idx := buildNodeIndex nodes
  match resolveNodeKey a idx, resolveNodeKey b idx with
  | none, _ => .error ("Node not found: " ++ a)
  | some _, none => .error ("Node not found: " ++ b)
  | some aKey, some bKey =>
    let adj := buildAdjacency edges
    let aN := adjGet adj aKey
    let bN := adjGet adj bKey
    .ok ⟨aKey, bKey, aN.filter (fun n => bN.contains n)⟩

/-- Rank map of `pageRank`, a plain object keyed by node key. -/
abbrev RankMap := List (String × ℚ)

/-- Rank of `k`, reading `0` for an absent binding. -/
def rankGet (m : RankMap) (k : String) : ℚ :=
  (mget m k).getD 0

/-- Distribution step of one `pageRank` iteration for one declared key
`k`: `damping * (rank[k] / outDegree)` is added to every neighbour,
initialising a previously-unseen neighbour (a dangling key) at
`(1 - damping) / N` first. -/
def prDistribute (adj : Adj) (rank : RankMap) (base d : ℚ) (k : String) (m : RankMap) :
    RankMap :=
  let neighbors := adjGet adj k
  let outDegree : ℚ := if neighbors.length = 0 then 1 else (neighbors.length : ℚ)
  neighbors.foldl (fun m2 n =>
    match mget m2 n with
    | some v => mset m2 n (v + d * (rankGet rank k / outDegree))
    | none => mset m2 n (base + d * (rankGet rank k / outDegree))) m

/-- One `pageRank` iteration: fresh `newRank` at `(1-d)/N` for the
declared keys, distribution from every declared key, then copy-back
`rank[k] = newRank[k] || 0` for the declared keys only. -/
def prIter (adj : Adj) (keys : List String) (nq d : ℚ) (rank : RankMap) : RankMap :=
  let base := (1 - d) / nq
  let nr0 := keys.foldl (fun m k => mset m k base) []
  let nr := keys.foldl (fun m k => prDistribute adj rank base d k m) nr0
  keys.foldl (fun m k => mset m k ((mget nr k).getD 0)) rank

/-- `pageRank({iterations, damping})` over in-memory collections. -/
def pageRank (nodes : List Node) (edges : List Edge) (iterations : Nat) (damping : ℚ) :
    RankMap :=
  let adj := buildAdjacency edges
  let keys := nodeKeysList nodes
  let nq : ℚ := if keys.length = 0 then 1 else (keys.length : ℚ)
  let init := keys.foldl (fun m k => mset m k (1 / nq)) []
  (List.range iterations).foldl (fun r _ => prIter adj keys nq damping r) init

/-- Sum of the rank entries of the declared keys. -/
def sumOver (keys : List String) (m : RankMap) : ℚ :=
  (keys.map (fun k => rankGet m k)).sum

/-- Search state of one Brandes source iteration. -/
structure BrandesState where
  stack : List String
  preds : List (String × List String)
  sigma : List (String × ℚ)
  dist : List (String × Int)
  queue : List String
deriving DecidableEq

/-- The `if (dist[w] < 0)` half of the Brandes neighbour scan: a
neighbour without a `dist` binding (a dangling key) fails the comparison
exactly as `undefined` does in JavaScript and is therefore never
enqueued.  (The `getD 0` reads model lookups the loop only ever performs
on bound keys.) -/
def brandesRelax (v : String) (s : BrandesState) (w : String) : BrandesState :=
  match mget s.dist w with
  | some x =>
    if x < 0 then
      { s with
        queue := s.queue ++ [w]
        dist := mset s.dist w ((mget s.dist v).getD 0 + 1) }
    else s
  | none => s

/-- The `if (dist[w] === dist[v] + 1)` half of the Brandes neighbour
scan: shortest-path counts and predecessor lists are extended; a key
without a `dist` binding again fails the comparison. -/
def brandesCount (v : String) (s : BrandesState) (w : String) : BrandesState :=
  match mget s.dist w with
  | some x =>
    if x = (mget s.dist v).getD 0 + 1 then
      { s with
        sigma := mset s.sigma w ((mget s.sigma w).getD 0 + (mget s.sigma v).getD 0)
        preds := mset s.preds w (((mget s.preds w).getD []) ++ [v]) }
    else s
  | none => s

/-- One neighbour `w` of a dequeued key `v` in the Brandes BFS: the two
consecutive `if` statements of the loop body. -/
def brandesStep (v : String) (s : BrandesState) (w : String) : BrandesState :=
  brandesCount v (brandesRelax v s w) w

/-- Neighbour scan of one dequeued key `v` in the Brandes BFS. -/
def brandesVisit (adj : Adj) (v : String) (st : BrandesState) : BrandesState :=
  (adjGet adj v).foldl (brandesStep v) st

/-- The BFS `while (queue.length)` loop of one Brandes source iteration,
with explicit fuel. -/
def brandesLoop (adj : Adj) : Nat → BrandesState → BrandesState
  | 0, st => st
  | fuel + 1, st =>
    match st.queue with
    | [] => st
    | v :: rest =>
      brandesLoop adj fuel (brandesVisit adj v { st with queue := rest, stack := st.stack ++ [v] })

/-- One pop of the Brandes back-propagation loop: dependency of `w` is
pushed to its predecessors and, if `w` is not the source, added to its
score. -/
def brandesBackStep (preds : List (String × List String)) (sigma : List (String × ℚ))
    (s : String) (acc : List (String × ℚ) × List (String × ℚ)) (w : String) :
    List (String × ℚ) × List (String × ℚ) :=
  let delta2 := ((mget preds w).getD []).foldl (fun dl v =>
    mset dl v ((mget dl v).getD 0 +
      ((mget sigma v).getD 0 / (mget sigma w).getD 0) * (1 + (mget dl w).getD 0))) acc.1
  let scores2 :=
    if w ≠ s then mset acc.2 w ((mget acc.2 w).getD 0 + (mget delta2 w).getD 0)
    else acc.2
  (delta2, scores2)

/-- One source iteration of `betweennessCentrality`: BFS from `s`
(recording `sigma`, `preds`, `dist` for the declared keys), then
back-propagation in reverse BFS-finish order. -/
def brandesSource (adj : Adj) (keys : List String) (scores : List (String × ℚ))
    (s : String) : List (String × ℚ) :=
  let preds0 := keys.foldl (fun m v => mset m v ([] : List String)) []
  let sigma0 := keys.foldl (fun m v => mset m v (0 : ℚ)) []
  let dist0 := keys.foldl (fun m v => mset m v (-1 : Int)) []
  let st0 : BrandesState :=
    ⟨[], preds0, mset sigma0 s 1, mset dist0 s 0, [s]⟩
  let fin := brandesLoop adj (keys.length + 1) st0
  let delta0 := keys.foldl (fun m v => mset m v (0 : ℚ)) []
  ((fin.stack.reverse).foldl (brandesBackStep fin.preds fin.sigma s) (delta0, scores)).2

/-- `betweennessCentrality()` over in-memory collections. -/
def betweennessCentrality (nodes : List Node) (edges : List Edge) : List (String × ℚ) :=
  let adj := buildAdjacency edges
  let keys := nodeKeysList nodes
  let scores0 := keys.foldl (fun m k => mset m k (0 : ℚ)) []
  keys.foldl (fun sc s => brandesSource adj keys sc s) scores0

/-- Label of a neighbour in `labelPropagation`: looking up a key with no
binding yields JavaScript `undefined`, which the `counts` object then
coerces to the string `"undefined"`. -/
def labelOf (labels : List (String × String)) (n : String) : String :=
  (mget labels n).getD "undefined"

/-- Relabelling of one declared key in a `labelPropagation` sweep: count
the neighbours' current labels and take the first label seen with the
maximum count (a node with no neighbours keeps its label). -/
def lpStep (adj : Adj) (labels : List (String × String)) (k : String) :
    List (String × String) :=
  let neighbors := adjGet adj k
  if neighbors.length = 0 then labels
  else
    let counts := neighbors.foldl (fun c n =>
      let label := labelOf labels n
      mset c label ((mget c label).getD 0 + 1)) ([] : List (String × Nat))
    let best := counts.foldl (fun (bl : String × Int) p =>
      if (p.2 : Int) > bl.2 then (p.1, (p.2 : Int)) else bl) (labelOf labels k, -1)
    mset labels k best.1

/-- One full sweep of `labelPropagation` over the declared keys, labels
being read and written within the same sweep. -/
def lpSweep (adj : Adj) (keys : List String) (labels : List (String × String)) :
    List (String × String) :=
  keys.foldl (lpStep adj) labels

/-- `labelPropagation({iterations})` over in-memory collections. -/
def labelPropagation (nodes : List Node) (edges : List Edge) (iterations : Nat) :
    List (String × String) :=
  let adj := buildAdjacency edges
  let keys := nodeKeysList nodes
  let init := keys.foldl (fun m k => mset m k k) []
  (List.range iterations).foldl (fun l _ => lpSweep adj keys l) init

/-- `calculateConnectionStrength(myHandle, agentHandle, graph)`: first
matching direct edge in either direction (`strength || 0.5`), else
`0.3 + 0.1 ×` the directed mutual-friend count, else `0.2` when both
handles have a declared node and their `community` fields coincide
(strict equality, so two absent fields also coincide), else `0`. -/
def calculateConnectionStrength (myHandle agentHandle : String)
    (nodes : List Node) (edges : List Edge) : ℚ :=
  match edges.find? (fun e =>
      (e.from_ == some myHandle && e.to_ == some agentHandle) ||
      (e.from_ == some agentHandle && e.to_ == some myHandle)) with
  | some directEdge =>
    match directEdge.strength with
    | some s => if s = 0 then 1/2 else s
    | none => 1/2
  | none =>
    let friendsOfMine := (edges.filter (fun e => e.from_ == some myHandle)).map Edge.to_
    let theirFriends := (edges.filter (fun e => e.from_ == some agentHandle)).map Edge.to_
    let mutualFriends := friendsOfMine.filter (fun f => theirFriends.contains f)
    if mutualFriends.length > 0 then
      3/10 + (mutualFriends.length : ℚ) * (1/10)
    else
      match nodes.find? (fun n => n.handle == some myHandle),
            nodes.find? (fun n => n.handle == some agentHandle) with
      | some myNode, some theirNode =>
        if myNode.community = theirNode.community then 1/5 else 0
      | _, _ => 0

/-- `calculateMutualFriends(myHandle, agentHandle, graph)`: size of the
overlap of the two directed out-neighbour lists, counted with
multiplicity over `myHandle`'s out-edge list. -/
def calculateMutualFriends (myHandle agentHandle : String) (edges : List Edge) : Nat :=
  let friendsOfMine := (edges.filter (fun e => e.from_ == some myHandle)).map Edge.to_
  let theirFriends := (edges.filter (fun e => e.from_ == some agentHandle)).map Edge.to_
  (friendsOfMine.filter (fun f => theirFriends.contains f)).length

/-- A loaded graph: the two in-memory collections. -/
structure Graph where
  nodes : List Node
  edges : List Edge
deriving DecidableEq

/-- The self-node insertion of `generateFeed`: when the baseline handle
is truthy and no declared node carries it, a synthetic node is pushed
onto the loaded node collection. -/
def ensureSelfNode (amikonetHandle : Option String) (g : Graph) : Graph :=
  if jsTruthy amikonetHandle && !(g.nodes.any (fun n => n.handle == amikonetHandle)) then
    { g with nodes := g.nodes ++ [{ id := amikonetHandle, handle := amikonetHandle }] }
  else g

/-- Stable descending insertion: an item is placed after every earlier
item whose score is at least as large, which is the order a stable
JavaScript `sort((a, b) => b.score - a.score)` produces. -/
def insertDesc {α : Type} (x : α × ℚ) : List (α × ℚ) → List (α × ℚ)
  | [] => [x]
  | y :: rest => if y.2 < x.2 then x :: y :: rest else y :: insertDesc x rest

/-- Stable descending sort by score. -/
def sortByScoreDesc {α : Type} (l : List (α × ℚ)) : List (α × ℚ) :=
  l.foldl (fun acc x => insertDesc x acc) []

/-- Feed assembly of `generateFeed` with the per-item score abstracted:
score every candidate, sort descending, keep scores above `0.05` capped
at `20`, and fall back to the top `5` raw-scored items when the filtered
list is empty. -/
def generateFeedList {α : Type} (posts : List α) (scoreOf : α → ℚ) : List (α × ℚ) :=
  let scored := posts.map (fun p => (p, scoreOf p))
  let sorted := sortByScoreDesc scored
  let feed := (sorted.filter (fun item => decide (item.2 > 1/20))).take 20
  if feed.length > 0 then feed else sorted.take 5

/-- Reachability along the adjacency index (the undirected connectivity
relation of the specification). -/
def AdjReach (adj : Adj) (a b : String) : Prop :=
  Relation.ReflTransGen (fun x y => y ∈ adjGet adj x) a b

/-- All neighbour-list entries of the adjacency index, concatenated; an
upper bound for the keys a BFS from inside the index can ever visit. -/
def adjTargets (adj : Adj) : List String :=
  (adj.map Prod.snd).flatten

/-- Invariant of the `shortestPath` BFS loop, relative to the adjacency
index and the resolved start key: the visited list is duplicate-free,
contains the start key, and is confined to the start key and adjacency
entries; queued keys are visited; every visited key is reachable from
the start; every visited key except the start has a predecessor binding;
predecessor bindings point to earlier-visited keys; every visited key is
either still queued or fully expanded; and `prev` holds one binding per
visited key except the start. -/
def SPInv (adj : Adj) (fk : String) (st : PathState) : Prop :=
  st.visited.Nodup ∧
  fk ∈ st.visited ∧
  (∀ x ∈ st.queue, x ∈ st.visited) ∧
  (∀ x ∈ st.visited, AdjReach adj fk x) ∧
  (∀ x ∈ st.visited, x = fk ∨ (mget st.prev x).isSome) ∧
  (∀ x c, mget st.prev x = some c → c ∈ st.visited ∧ x ∈ st.visited ∧
    st.visited.indexOf c < st.visited.indexOf x) ∧
  (∀ v ∈ st.visited, v ∈ st.queue ∨ ∀ w ∈ adjGet adj v, w ∈ st.visited) ∧
  st.prev.length + 1 = st.visited.length ∧
  (∀ x ∈ st.visited, x ∈ fk :: adjTargets adj)

/-- Modelled from the claim wording of C2: connection strength with the
mutual-neighbour count taken over the undirected adjacency index, the
direct edge's strength taken literally when present, and the community
fallback requiring an explicitly shared `community` attribute. -/
def connectionStrengthSpecC2 (myHandle agentHandle : String)
    (nodes : List Node) (edges : List Edge) : ℚ :=
  match edges.find? (fun e =>
      (e.from_ == some myHandle && e.to_ == some agentHandle) ||
      (e.from_ == some agentHandle && e.to_ == some myHandle)) with
  | some directEdge =>
    match directEdge.strength with
    | some s => s
    | none => 1/2
  | none =>
    let adj := buildAdjacency edges
    let mutualN := (adjGet adj myHandle).filter (fun n => (adjGet adj agentHandle).contains n)
    if mutualN.length > 0 then
      3/10 + (mutualN.length : ℚ) * (1/10)
    else
      match nodes.find? (fun n => n.handle == some myHandle),
            nodes.find? (fun n => n.handle == some agentHandle) with
      | some myNode, some theirNode =>
        match myNode.community, theirNode.community with
        | some c1, some c2 => if c1 = c2 then 1/5 else 0
        | _, _ => 0
      | _, _ => 0

/-- Directed out-neighbour list of a handle, in edge-list order
(used to phrase the amended C2). -/
def outNeighbors (h : String) (edges : List Edge) : List (Option String) :=
  (edges.filter (fun e => e.from_ == some h)).map Edge.to_

/-- The amended C2 connection strength, phrased from the amended claim:
the first direct edge in either direction contributes its strength when
that strength is present and non-zero and `0.5` otherwise; failing that,
`0.3 + 0.1 ×` the number of positions of `myHandle`'s directed
out-neighbour list that also occur in `agentHandle`'s directed
out-neighbour list, when positive; failing that, `0.2` when both handles
have a declared node (first with that exact handle) whose `community`
fields are equal — including the case where both are absent; else `0`. -/
def connectionStrengthAmendedC2 (myHandle agentHandle : String)
    (nodes : List Node) (edges : List Edge) : ℚ :=
  match edges.find? (fun e =>
      (e.from_ == some myHandle && e.to_ == some agentHandle) ||
      (e.from_ == some agentHandle && e.to_ == some myHandle)) with
  | some directEdge =>
    match directEdge.strength with
    | some s => if s = 0 then 1/2 else s
    | none => 1/2
  | none =>
    let mutualCount :=
      (outNeighbors myHandle edges).countP (fun f => (outNeighbors agentHandle edges).contains f)
    if 0 < mutualCount then
      3/10 + (mutualCount : ℚ) * (1/10)
    else
      match nodes.find? (fun n => n.handle == some myHandle),
            nodes.find? (fun n => n.handle == some agentHandle) with
      | some myNode, some theirNode =>
        if myNode.community = theirNode.community then 1/5 else 0
      | _, _ => 0

/-! ## Association-list lemmas -/

theorem mget_nil {α : Type} (j : String) : mget ([] : List (String × α)) j = none := rfl

theorem mget_cons {α : Type} (p : String × α) (m : List (String × α)) (j : String) :
    mget (p :: m) j = if p.1 = j then some p.2 else mget m j := by
  by_cases h : p.1 = j
  · simp [mget, List.find?_cons, h]
  · simp only [mget, List.find?_cons]
    have : (p.1 == j) = false := by simpa using h
    simp [this, h, mget]

theorem mget_mset {α : Type} :
    ∀ (m : List (String × α)) (k : String) (v : α) (j : String),
      mget (mset m k v) j = if j = k then some v else mget m j
  | [], k, v, j => by
    by_cases h : j = k
    · simp [mset, mget_cons, h]
    · simp [mset, mget_cons, h, Ne.symm h, mget_nil]
  | p :: rest, k, v, j => by
    simp only [mset]
    by_cases hpk : p.1 = k
    · by_cases hjk : j = k
      · simp [hpk, mget_cons, hjk]
      · have hpj : p.1 ≠ j := by rw [hpk]; exact fun h => hjk h.symm
        simp [hpk, mget_cons, hpj, hjk, Ne.symm hjk]
    · by_cases hpj : p.1 = j
      · have hjk : j ≠ k := by rw [← hpj]; exact hpk
        simp [hpk, mget_cons, hpj, hjk, Ne.symm hjk]
      · simp [hpk, mget_cons, hpj, mget_mset rest k v j]

theorem mget_foldl_mset_of_notMem {α : Type} :
    ∀ (l : List String) (f : List (String × α) → String → α) (m0 : List (String × α))
      (j : String), j ∉ l →
      mget (l.foldl (fun m k => mset m k (f m k)) m0) j = mget m0 j
  | [], _, _, _, _ => rfl
  | k :: rest, f, m0, j, hj => by
    have hjk : j ≠ k := fun h => hj (h ▸ List.mem_cons_self k rest)
    have hjr : j ∉ rest := fun h => hj (List.mem_cons_of_mem k h)
    simp only [List.foldl_cons]
    rw [mget_foldl_mset_of_notMem rest f _ j hjr, mget_mset, if_neg hjk]

theorem mget_foldl_mset_of_mem {α : Type} :
    ∀ (l : List String) (g : String → α) (m0 : List (String × α)) (j : String), j ∈ l →
      mget (l.foldl (fun m k => mset m k (g k)) m0) j = some (g j)
  | [], _, _, _, hj => absurd hj (List.not_mem_nil _)
  | k :: rest, g, m0, j, hj => by
    simp only [List.foldl_cons]
    by_cases hjr : j ∈ rest
    · exact mget_foldl_mset_of_mem rest g _ j hjr
    · have hjk : j = k := by
        rcases List.mem_cons.mp hj with h | h
        · exact h
        · exact absurd h hjr
      rw [mget_foldl_mset_of_notMem rest (fun _ k => g k) _ j hjr, mget_mset, if_pos hjk, hjk]

/-! ## Feed-assembly lemmas -/

theorem insertDesc_length {α : Type} (x : α × ℚ) :
    ∀ l : List (α × ℚ), (insertDesc x l).length = l.length + 1
  | [] => rfl
  | y :: rest => by
    simp only [insertDesc]
    split
    · simp
    · simp [insertDesc_length x rest]

theorem foldl_insertDesc_length {α : Type} :
    ∀ (l acc : List (α × ℚ)),
      (l.foldl (fun a x => insertDesc x a) acc).length = acc.length + l.length
  | [], _ => rfl
  | x :: rest, acc => by
    simp only [List.foldl_cons, List.length_cons]
    rw [foldl_insertDesc_length rest, insertDesc_length]
    omega

theorem sortByScoreDesc_length {α : Type} (l : List (α × ℚ)) :
    (sortByScoreDesc l).length = l.length := by
  unfold sortByScoreDesc
  rw [foldl_insertDesc_length]
  simp

/-! ## Claim C5 -/

/-- C5: for every non-empty candidate item list, the assembled feed is
non-empty; items are scored, sorted descending, those with score above
`0.05` are kept capped at `20`, and when that filtered set is empty the
feed falls back to the top `5` raw-scored items, so the fallback feed has
length at most `5`. -/
theorem C5_feed_assembly {α : Type} (posts : List α) (scoreOf : α → ℚ) (hne : posts ≠ []) :
    generateFeedList posts scoreOf ≠ [] ∧
    (generateFeedList posts scoreOf).length ≤ 20 ∧
    (((sortByScoreDesc (posts.map (fun p => (p, scoreOf p)))).filter
        (fun item => decide (item.2 > 1/20))).take 20 = [] →
      (generateFeedList posts scoreOf).length ≤ 5) := by
  have hpos : 0 < posts.length := List.length_pos.mpr hne
  have hslen : (sortByScoreDesc (posts.map (fun p => (p, scoreOf p)))).length = posts.length := by
    rw [sortByScoreDesc_length, List.length_map]
  simp only [generateFeedList]
  set sorted := sortByScoreDesc (posts.map (fun p => (p, scoreOf p))) with hs
  set feed := (sorted.filter (fun item => decide (item.2 > 1/20))).take 20 with hf
  by_cases hfe : feed.length > 0
  · rw [if_pos hfe]
    refine ⟨List.ne_nil_of_length_pos hfe, List.length_take_le 20 _, fun hemp => ?_⟩
    rw [hemp] at hfe
    simp at hfe
  · rw [if_neg hfe]
    refine ⟨?_, ?_, fun _ => List.length_take_le 5 _⟩
    · apply List.ne_nil_of_length_pos
      rw [List.length_take]
      omega
    · calc (sorted.take 5).length ≤ 5 := List.length_take_le 5 _
        _ ≤ 20 := by omega

/-- C5 witness: a concrete one-element candidate list yields a non-empty
feed of at most twenty (indeed at most five) items. -/
theorem C5_witness :
    generateFeedList [(0 : ℚ)] (fun x => x) ≠ [] ∧
    (generateFeedList [(0 : ℚ)] (fun x => x)).length ≤ 20 ∧
    (((sortByScoreDesc ([(0 : ℚ)].map (fun p => (p, (fun x => x) p)))).filter
        (fun item => decide (item.2 > 1/20))).take 20 = [] →
      (generateFeedList [(0 : ℚ)] (fun x => x)).length ≤ 5) :=
  C5_feed_assembly [(0 : ℚ)] (fun x => x) (by simp)

/-! ## Claim C10 -/

/-- C10 counterexample: the graph whose edge list holds two direct edges
from `"a"` to `"b"`, the first with strength `0.8` and the second with
strength `0`, contains a direct edge of strength exactly `0`, yet the
returned connection strength is `0.8`, neither `0.5` nor `0`. -/
theorem C10_counterexample :
    calculateConnectionStrength "a" "b" []
      [⟨some "a", some "b", some (4/5)⟩, ⟨some "a", some "b", some 0⟩] = 4/5 ∧
    (4/5 : ℚ) ≠ 1/2 := by
  constructor
  · with_unfolding_all rfl
  · norm_num

/-- C10 (amended): a direct edge whose explicit strength is `0` (or any
falsy strength) is treated the same as an edge carrying no strength:
whenever the first direct edge between self and author in edge-list
order carries strength `0` or no strength, the returned connection
strength is `0.5`, not `0`. -/
theorem C10_falsy_strength_defaults (myHandle agentHandle : String)
    (nodes : List Node) (edges : List Edge) (e : Edge)
    (hfind : edges.find? (fun e =>
      (e.from_ == some myHandle && e.to_ == some agentHandle) ||
      (e.from_ == some agentHandle && e.to_ == some myHandle)) = some e)
    (hstr : e.strength = some 0 ∨ e.strength = none) :
    calculateConnectionStrength myHandle agentHandle nodes edges = 1/2 := by
  unfold calculateConnectionStrength
  rw [hfind]
  rcases hstr with h | h <;> simp [h]

/-- C10 witness: a single zero-strength direct edge yields `0.5`. -/
theorem C10_witness :
    calculateConnectionStrength "a" "b" [] [⟨some "a", some "b", some 0⟩] = 1/2 :=
  C10_falsy_strength_defaults "a" "b" [] [⟨some "a", some "b", some 0⟩]
    ⟨some "a", some "b", some 0⟩ (by with_unfolding_all rfl) (Or.inl rfl)

/-! ## Claim C4 -/

/-- C4 counterexample: `generateFeed` does mutate the loaded node
collection: with a truthy baseline handle that matches no declared node,
the self-node insertion extends the empty node list, so the in-memory
collections after preparation differ from the collections as loaded. -/
theorem C4_counterexample :
    ensureSelfNode (some "@me") ⟨[], []⟩ ≠ (⟨[], []⟩ : Graph) := by
  decide

/-- C4 (amended): the edge collection is never changed, and the only
post-load change to the node collection in the core is `generateFeed`'s
self-node insertion: when the baseline handle is truthy and matches no
declared node's `handle`, exactly one synthetic self node is appended;
in every other situation the collections are returned exactly as
loaded.  All other core queries are modelled as pure functions of the
collections and return fresh results. -/
theorem C4_only_self_node_insertion (h : Option String) (g : Graph) :
    (ensureSelfNode h g).edges = g.edges ∧
    (jsTruthy h = true → g.nodes.any (fun n => n.handle == h) = false →
      (ensureSelfNode h g).nodes = g.nodes ++ [{ id := h, handle := h }]) ∧
    (jsTruthy h = false → ensureSelfNode h g = g) ∧
    (g.nodes.any (fun n => n.handle == h) = true → ensureSelfNode h g = g) := by
  refine ⟨?_, ?_, ?_, ?_⟩
  · unfold ensureSelfNode
    split <;> rfl
  · intro ht hn
    unfold ensureSelfNode
    simp [ht, hn]
  · intro ht
    unfold ensureSelfNode
    simp [ht]
  · intro hn
    unfold ensureSelfNode
    simp [hn]

/-- C4 witness: at a concrete truthy, unmatched handle the insertion
appends exactly the synthetic self node, and edges are untouched. -/
theorem C4_witness :
    (ensureSelfNode (some "@me") ⟨[], []⟩).edges = [] ∧
    (ensureSelfNode (some "@me") ⟨[], []⟩).nodes =
      [{ id := some "@me", handle := some "@me" }] :=
  ⟨(C4_only_self_node_insertion (some "@me") ⟨[], []⟩).1,
    (C4_only_self_node_insertion (some "@me") ⟨[], []⟩).2.1 (by decide) (by decide)⟩

/-! ## Claim C2 -/

/-- C2 counterexample: with self `"a"`, author `"b"` and the edges
`c → a`, `c → b`, the key `c` is a mutual neighbour over the undirected
adjacency, so the claimed signal is `0.3 + 0.1 × 1 = 0.4`; the code,
which intersects the directed out-neighbour lists only, returns `0`. -/
theorem C2_counterexample :
    calculateConnectionStrength "a" "b" []
      [⟨some "c", some "a", none⟩, ⟨some "c", some "b", none⟩] = 0 ∧
    connectionStrengthSpecC2 "a" "b" []
      [⟨some "c", some "a", none⟩, ⟨some "c", some "b", none⟩] = 2/5 ∧
    (0 : ℚ) ≠ 2/5 := by
  refine ⟨by with_unfolding_all rfl, by with_unfolding_all rfl, by norm_num⟩

/-- C2 (amended): the connection-strength signal equals: the first direct
edge's strength if an edge between self and author exists in either
direction (`0.5` if that edge's strength is absent or zero); otherwise
`0.3 + 0.1 ×` the directed mutual-neighbour count — positions of self's
out-neighbour list (edges whose `from` is self) occurring in the author's
out-neighbour list — if that count is positive; otherwise `0.2` if both
handles have a declared node and the two nodes' `community` fields are
equal, including the case where both are absent; otherwise `0`. -/
theorem C2_connection_strength_formula (myHandle agentHandle : String)
    (nodes : List Node) (edges : List Edge) :
    calculateConnectionStrength myHandle agentHandle nodes edges =
      connectionStrengthAmendedC2 myHandle agentHandle nodes edges := by
  unfold calculateConnectionStrength connectionStrengthAmendedC2 outNeighbors
  cases hfind : edges.find? (fun e =>
      (e.from_ == some myHandle && e.to_ == some agentHandle) ||
      (e.from_ == some agentHandle && e.to_ == some myHandle)) with
  | some e => rfl
  | none =>
    simp only [List.countP_eq_length_filter]

/-! ## Claim C7 -/

/-- C7 counterexample: a graph with the single declared node `"@a"` and a
self-loop edge at `"@a"`: `getNeighbors` with `hops = 0` returns that
self-loop in its edge set, which is not empty. -/
theorem C7_counterexample :
    getNeighbors [⟨none, none, some "@a", none⟩] [⟨some "@a", some "@a", none⟩] "@a" 0 =
      .ok ⟨"@a", [⟨none, none, some "@a", none⟩], [⟨some "@a", some "@a", none⟩]⟩ ∧
    ([⟨some "@a", some "@a", none⟩] : List Edge) ≠ [] := by
  refine ⟨by with_unfolding_all rfl, by simp⟩

/-- C7 (amended): for every graph and every input that resolves to key
`k`, `getNeighbors` with `hops = 0` reaches exactly the singleton key set
`{k}`, and its returned edge set consists exactly of the self-loop edges
at `k` — in particular it is empty whenever the graph has no self-loop
at `k`. -/
theorem C7_hops_zero (nodes : List Node) (edges : List Edge) (input k : String)
    (hres : resolveNodeKey input (buildNodeIndex nodes) = some k) :
    (bfsRounds (buildAdjacency edges) 0 ([k], [k])).1 = [k] ∧
    ∃ r, getNeighbors nodes edges input 0 = .ok r ∧ r.startKey = k ∧
      (∀ e, e ∈ r.edges ↔ e ∈ edges ∧ e.from_ = some k ∧ e.to_ = some k) := by
  refine ⟨rfl, ?_⟩
  simp only [getNeighbors]
  rw [hres]
  refine ⟨_, rfl, rfl, fun e => ?_⟩
  simp only [bfsRounds, List.mem_filter]
  constructor
  · rintro ⟨he, hp⟩
    refine ⟨he, ?_, ?_⟩
    · cases hf : e.from_ with
      | none => rw [hf] at hp; simp [optMem] at hp
      | some s =>
        rw [hf] at hp
        simp only [optMem, Bool.and_eq_true, List.contains_cons, List.contains_nil,
          Bool.or_false, beq_iff_eq] at hp
        rw [hp.1]
    · cases ht : e.to_ with
      | none => rw [ht] at hp; simp [optMem] at hp
      | some s =>
        rw [ht] at hp
        simp only [optMem, Bool.and_eq_true, List.contains_cons, List.contains_nil,
          Bool.or_false, beq_iff_eq] at hp
        rw [hp.2]
  · rintro ⟨he, hf, ht⟩
    refine ⟨he, ?_⟩
    rw [hf, ht]
    simp [optMem]

/-- C7 witness: on the two-node path graph, `getNeighbors` from `"@a"`
with zero hops reaches only `"@a"` and returns no edges. -/
theorem C7_witness :
    (bfsRounds (buildAdjacency [⟨some "@a", some "@b", none⟩]) 0 (["@a"], ["@a"])).1 = ["@a"] ∧
    ∃ r, getNeighbors [⟨none, none, some "@a", none⟩, ⟨none, none, some "@b", none⟩]
        [⟨some "@a", some "@b", none⟩] "@a" 0 = .ok r ∧ r.startKey = "@a" ∧
      (∀ e, e ∈ r.edges ↔ e ∈ [(⟨some "@a", some "@b", none⟩ : Edge)] ∧
        e.from_ = some "@a" ∧ e.to_ = some "@a") :=
  C7_hops_zero [⟨none, none, some "@a", none⟩, ⟨none, none, some "@b", none⟩]
    [⟨some "@a", some "@b", none⟩] "@a" "@a" (by with_unfolding_all rfl)

/-! ## Claim C8 -/

/-- C8: `commonNeighbors` is symmetric in its two arguments: whenever
both inputs resolve, the two result sets contain exactly the same
keys. -/
theorem C8_common_neighbors_symm (nodes : List Node) (edges : List Edge)
    (a b ak bk : String)
    (ha : resolveNodeKey a (buildNodeIndex nodes) = some ak)
    (hb : resolveNodeKey b (buildNodeIndex nodes) = some bk) :
    ∃ rab rba, commonNeighbors nodes edges a b = .ok rab ∧
      commonNeighbors nodes edges b a = .ok rba ∧
      ∀ x, x ∈ rab.common ↔ x ∈ rba.common := by
  simp only [commonNeighbors]
  rw [ha, hb]
  refine ⟨_, _, rfl, rfl, fun x => ?_⟩
  simp only [List.mem_filter, List.elem_iff]
  constructor
  · rintro ⟨h1, h2⟩
    exact ⟨h2, h1⟩
  · rintro ⟨h1, h2⟩
    exact ⟨h2, h1⟩

/-- C8 witness: on the path graph `@a – @b – @c`, the common neighbours
of `@a` and `@c` agree in both argument orders. -/
theorem C8_witness :
    ∃ rab rba, commonNeighbors
        [⟨none, none, some "@a", none⟩, ⟨none, none, some "@b", none⟩,
          ⟨none, none, some "@c", none⟩]
        [⟨some "@a", some "@b", none⟩, ⟨some "@b", some "@c", none⟩] "@a" "@c" = .ok rab ∧
      commonNeighbors
        [⟨none, none, some "@a", none⟩, ⟨none, none, some "@b", none⟩,
          ⟨none, none, some "@c", none⟩]
        [⟨some "@a", some "@b", none⟩, ⟨some "@b", some "@c", none⟩] "@c" "@a" = .ok rba ∧
      ∀ x, x ∈ rab.common ↔ x ∈ rba.common :=
  C8_common_neighbors_symm _ _ "@a" "@c" "@a" "@c"
    (by with_unfolding_all rfl) (by with_unfolding_all rfl)

/-! ## Label-propagation lemmas -/

theorem counts_all_undefined_aux (labels : List (String × String)) :
    ∀ (ns : List String) (m : Nat), (∀ n ∈ ns, labelOf labels n = "undefined") →
      ns.foldl (fun c n =>
          let label := labelOf labels n
          mset c label ((mget c label).getD 0 + 1)) [("undefined", m)] =
        [("undefined", m + ns.length)]
  | [], m, _ => by simp
  | n :: rest, m, hall => by
    have hn : labelOf labels n = "undefined" := hall n (List.mem_cons_self n rest)
    simp only [List.foldl_cons, hn]
    have hstep : mset [("undefined", m)] "undefined"
        ((mget [("undefined", m)] "undefined").getD 0 + 1) = [("undefined", m + 1)] := by
      simp [mset, mget_cons]
    rw [hstep, counts_all_undefined_aux labels rest (m + 1)
      (fun x hx => hall x (List.mem_cons_of_mem n hx))]
    have h2 : m + 1 + rest.length = m + (n :: rest).length := by
      simp only [List.length_cons]
      omega
    rw [h2]

theorem counts_all_undefined (labels : List (String × String)) (ns : List String)
    (hne : ns ≠ []) (hall : ∀ n ∈ ns, labelOf labels n = "undefined") :
    ns.foldl (fun c n =>
        let label := labelOf labels n
        mset c label ((mget c label).getD 0 + 1)) [] = [("undefined", ns.length)] := by
  cases ns with
  | nil => exact absurd rfl hne
  | cons n rest =>
    have hn : labelOf labels n = "undefined" := hall n (List.mem_cons_self n rest)
    simp only [List.foldl_cons, hn]
    have hstep : mset ([] : List (String × Nat)) "undefined"
        ((mget ([] : List (String × Nat)) "undefined").getD 0 + 1) = [("undefined", 1)] := by
      simp [mset, mget_nil]
    rw [hstep, counts_all_undefined_aux labels rest 1
      (fun x hx => hall x (List.mem_cons_of_mem n hx))]
    have h2 : 1 + rest.length = (n :: rest).length := by
      simp only [List.length_cons]
      omega
    rw [h2]

theorem lpStep_ghost (adj : Adj) (labels : List (String × String)) (k : String)
    (hne : adjGet adj k ≠ [])
    (hghost : ∀ n ∈ adjGet adj k, mget labels n = none) :
    lpStep adj labels k = mset labels k "undefined" := by
  simp only [lpStep]
  have hlen : (adjGet adj k).length ≠ 0 := fun h => hne (List.eq_nil_of_length_eq_zero h)
  rw [if_neg hlen]
  have hall : ∀ n ∈ adjGet adj k, labelOf labels n = "undefined" := by
    intro n hn
    unfold labelOf
    rw [hghost n hn]
    rfl
  rw [counts_all_undefined labels _ hne hall]
  simp only [List.foldl_cons, List.foldl_nil]
  split
  · rfl
  · rename_i hcond
    exfalso
    omega

theorem mget_lpStep_ne (adj : Adj) (labels : List (String × String)) (j k : String)
    (hjk : j ≠ k) : mget (lpStep adj labels j) k = mget labels k := by
  simp only [lpStep]
  split
  · rfl
  · rw [mget_mset, if_neg (fun h => hjk h.symm)]

theorem mget_foldl_lpStep_of_notMem (adj : Adj) :
    ∀ (l : List String) (labels : List (String × String)) (k : String), k ∉ l →
      mget (l.foldl (lpStep adj) labels) k = mget labels k
  | [], _, _, _ => rfl
  | j :: rest, labels, k, hk => by
    have hjk : j ≠ k := fun h => hk (h ▸ List.mem_cons_self j rest)
    have hkr : k ∉ rest := fun h => hk (List.mem_cons_of_mem j h)
    simp only [List.foldl_cons]
    rw [mget_foldl_lpStep_of_notMem adj rest _ k hkr, mget_lpStep_ne adj labels j k hjk]

theorem lpStep_support (adj : Adj) (labels : List (String × String)) (j x : String)
    (hx : mget (lpStep adj labels j) x ≠ none) : x = j ∨ mget labels x ≠ none := by
  by_cases hxj : x = j
  · exact Or.inl hxj
  · right
    rw [mget_lpStep_ne adj labels j x (fun h => hxj h.symm)] at hx
    exact hx

theorem foldl_lpStep_support (adj : Adj) :
    ∀ (l : List String) (labels : List (String × String)) (x : String),
      mget (l.foldl (lpStep adj) labels) x ≠ none → x ∈ l ∨ mget labels x ≠ none
  | [], _, _, hx => Or.inr hx
  | j :: rest, labels, x, hx => by
    rcases foldl_lpStep_support adj rest (lpStep adj labels j) x hx with h | h
    · exact Or.inl (List.mem_cons_of_mem j h)
    · rcases lpStep_support adj labels j x h with h2 | h2
      · exact Or.inl (h2 ▸ List.mem_cons_self j rest)
      · exact Or.inr h2

theorem lpSweep_ghost_aux (adj : Adj) (keys : List String) (k : String)
    (hne : adjGet adj k ≠ [])
    (hghost : ∀ n ∈ adjGet adj k, n ∉ keys) :
    ∀ (l : List String) (labels : List (String × String)), k ∈ l →
      (∀ j ∈ l, j ∈ keys) →
      (∀ j, mget labels j ≠ none → j ∈ keys) →
      mget (l.foldl (lpStep adj) labels) k = some "undefined"
  | [], _, hk, _, _ => absurd hk (List.not_mem_nil k)
  | j :: rest, labels, hk, hsub, hsupp => by
    have hsupp2 : ∀ x, mget (lpStep adj labels j) x ≠ none → x ∈ keys := by
      intro x hx
      rcases lpStep_support adj labels j x hx with h | h
      · exact h ▸ hsub j (List.mem_cons_self j rest)
      · exact hsupp x h
    by_cases hkr : k ∈ rest
    · exact lpSweep_ghost_aux adj keys k hne hghost rest (lpStep adj labels j) hkr
        (fun x hx => hsub x (List.mem_cons_of_mem j hx)) hsupp2
    · have hjk : j = k := by
        rcases List.mem_cons.mp hk with h | h
        · exact h.symm
        · exact absurd h hkr
      subst hjk
      have hglab : ∀ n ∈ adjGet adj j, mget labels n = none := by
        intro n hn
        by_contra hc
        exact hghost n hn (hsupp n hc)
      simp only [List.foldl_cons]
      rw [mget_foldl_lpStep_of_notMem adj rest _ j hkr,
        lpStep_ghost adj labels j hne hglab, mget_mset, if_pos rfl]

theorem foldl_sweep_support (adj : Adj) (keys : List String) :
    ∀ (rl : List Nat) (labels : List (String × String)),
      (∀ j, mget labels j ≠ none → j ∈ keys) → ∀ x,
      mget (rl.foldl (fun l _ => lpSweep adj keys l) labels) x ≠ none → x ∈ keys
  | [], _, hs, x, hx => hs x hx
  | _ :: rest, labels, hs, x, hx => by
    refine foldl_sweep_support adj keys rest (lpSweep adj keys labels) ?_ x hx
    intro y hy
    rcases foldl_lpStep_support adj keys labels y hy with h | h
    · exact h
    · exact hs y h

/-! ## Claim C9 -/

/-- C9: in label propagation, a neighbour key that is not a declared node
contributes the label value of the undefined lookup — the string
`"undefined"` — to the frequency count; consequently, for any declared
node all of whose neighbours are undeclared ghost keys, after one or more
rounds its output label is `"undefined"`, and, provided no declared node
is literally keyed `"undefined"`, that label is not the key of any node
in the store. -/
theorem C9_ghost_neighbors_label_undefined (nodes : List Node) (edges : List Edge)
    (iterations : Nat) (k : String)
    (hit : 0 < iterations)
    (hk : k ∈ nodeKeysList nodes)
    (hne : adjGet (buildAdjacency edges) k ≠ [])
    (hghost : ∀ n ∈ adjGet (buildAdjacency edges) k, n ∉ nodeKeysList nodes)
    (hund : "undefined" ∉ nodeKeysList nodes) :
    mget (labelPropagation nodes edges iterations) k = some "undefined" ∧
    ∀ l, mget (labelPropagation nodes edges iterations) k = some l →
      l ∉ nodeKeysList nodes := by
  have hsupp0 : ∀ j, mget ((nodeKeysList nodes).foldl (fun m2 k2 => mset m2 k2 k2) []) j ≠ none
      → j ∈ nodeKeysList nodes := by
    intro j hj
    by_contra hc
    rw [mget_foldl_mset_of_notMem (nodeKeysList nodes) (fun _ k2 => k2) [] j hc] at hj
    exact hj rfl
  have main : mget (labelPropagation nodes edges iterations) k = some "undefined" := by
    simp only [labelPropagation]
    obtain ⟨m, rfl⟩ : ∃ m, iterations = m + 1 := ⟨iterations - 1, by omega⟩
    rw [List.range_succ, List.foldl_append, List.foldl_cons, List.foldl_nil]
    have hsupp : ∀ x,
        mget ((List.range m).foldl
          (fun l _ => lpSweep (buildAdjacency edges) (nodeKeysList nodes) l)
          ((nodeKeysList nodes).foldl (fun m2 k2 => mset m2 k2 k2) [])) x ≠ none →
        x ∈ nodeKeysList nodes :=
      foldl_sweep_support (buildAdjacency edges) (nodeKeysList nodes) (List.range m) _ hsupp0
    exact lpSweep_ghost_aux (buildAdjacency edges) (nodeKeysList nodes) k hne hghost
      (nodeKeysList nodes) _ hk (fun _ hx => hx) hsupp
  exact ⟨main, fun l hl => by
    rw [main] at hl
    cases hl
    exact hund⟩

/-- C9 witness: node `"a"` whose only neighbour `"g"` is undeclared gets
label `"undefined"` after one round. -/
theorem C9_witness :
    mget (labelPropagation [⟨none, none, some "a", none⟩]
      [⟨some "a", some "g", none⟩] 1) "a" = some "undefined" ∧
    ∀ l, mget (labelPropagation [⟨none, none, some "a", none⟩]
      [⟨some "a", some "g", none⟩] 1) "a" = some l →
      l ∉ nodeKeysList [⟨none, none, some "a", none⟩] :=
  C9_ghost_neighbors_label_undefined [⟨none, none, some "a", none⟩]
    [⟨some "a", some "g", none⟩] 1 "a" (by omega) (by decide)
    (by decide) (by decide) (by decide)

/-! ## PageRank support lemmas -/

theorem mget_prIter_of_notMem (adj : Adj) (keys : List String) (nq d : ℚ)
    (rank : RankMap) (j : String) (hj : j ∉ keys) :
    mget (prIter adj keys nq d rank) j = mget rank j := by
  simp only [prIter]
  exact mget_foldl_mset_of_notMem keys _ rank j hj

theorem mget_foldl_prIter_of_notMem (adj : Adj) (keys : List String) (nq d : ℚ)
    (j : String) (hj : j ∉ keys) :
    ∀ (rl : List Nat) (r : RankMap),
      mget (rl.foldl (fun r2 _ => prIter adj keys nq d r2) r) j = mget r j
  | [], _ => rfl
  | _ :: rest, r => by
    simp only [List.foldl_cons]
    rw [mget_foldl_prIter_of_notMem adj keys nq d j hj rest _,
      mget_prIter_of_notMem adj keys nq d r j hj]

theorem mget_pageRank_of_notMem (nodes : List Node) (edges : List Edge)
    (iterations : Nat) (d : ℚ) (j : String) (hj : j ∉ nodeKeysList nodes) :
    mget (pageRank nodes edges iterations d) j = none := by
  simp only [pageRank]
  rw [mget_foldl_prIter_of_notMem _ _ _ _ j hj,
    mget_foldl_mset_of_notMem _ _ _ j hj]
  rfl

/-! ## Brandes support lemmas -/

theorem brandesRelax_spec (v : String) (s : BrandesState) (w : String) :
    (brandesRelax v s w).stack = s.stack ∧
    (∀ x, (mget (brandesRelax v s w).dist x).isSome ↔ (mget s.dist x).isSome) ∧
    ∃ new : List String, (brandesRelax v s w).queue = s.queue ++ new ∧
      ∀ y ∈ new, (mget s.dist y).isSome := by
  unfold brandesRelax
  cases h1 : mget s.dist w with
  | none =>
    exact ⟨rfl, fun x => Iff.rfl, ⟨[], by simp, by simp⟩⟩
  | some x =>
    dsimp only
    by_cases hx : x < 0
    · rw [if_pos hx]
      refine ⟨rfl, fun y => ?_, ⟨[w], by simp, ?_⟩⟩
      · rw [mget_mset]
        by_cases hyw : y = w
        · simp [hyw, h1]
        · simp [hyw]
      · intro y hy
        rw [List.mem_singleton] at hy
        subst hy
        simp [h1]
    · rw [if_neg hx]
      exact ⟨rfl, fun x => Iff.rfl, ⟨[], by simp, by simp⟩⟩

theorem brandesCount_spec (v : String) (s : BrandesState) (w : String) :
    (brandesCount v s w).stack = s.stack ∧
    (brandesCount v s w).dist = s.dist ∧
    (brandesCount v s w).queue = s.queue := by
  unfold brandesCount
  cases h1 : mget s.dist w with
  | none => exact ⟨rfl, rfl, rfl⟩
  | some x =>
    dsimp only
    by_cases hx : x = (mget s.dist v).getD 0 + 1
    · rw [if_pos hx]
      exact ⟨rfl, rfl, rfl⟩
    · rw [if_neg hx]
      exact ⟨rfl, rfl, rfl⟩

theorem brandesStep_spec (v : String) (s : BrandesState) (w : String) :
    (brandesStep v s w).stack = s.stack ∧
    (∀ x, (mget (brandesStep v s w).dist x).isSome ↔ (mget s.dist x).isSome) ∧
    ∃ new : List String, (brandesStep v s w).queue = s.queue ++ new ∧
      ∀ y ∈ new, (mget s.dist y).isSome := by
  obtain ⟨hst, hdist, new, hq, hnew⟩ := brandesRelax_spec v s w
  obtain ⟨cst, cdist, cq⟩ := brandesCount_spec v (brandesRelax v s w) w
  unfold brandesStep
  refine ⟨cst.trans hst, fun x => ?_, new, cq.trans hq, hnew⟩
  rw [cdist]
  exact hdist x

theorem foldl_brandesStep_spec (v : String) :
    ∀ (l : List String) (st : BrandesState),
      ((l.foldl (brandesStep v) st).stack = st.stack) ∧
      (∀ x, (mget (l.foldl (brandesStep v) st).dist x).isSome ↔ (mget st.dist x).isSome) ∧
      ∃ new : List String, (l.foldl (brandesStep v) st).queue = st.queue ++ new ∧
        ∀ y ∈ new, (mget st.dist y).isSome
  | [], st => ⟨rfl, fun x => Iff.rfl, ⟨[], by simp, by simp⟩⟩
  | w :: rest, st => by
    obtain ⟨sst, sdist, new1, sq, snew1⟩ := brandesStep_spec v st w
    obtain ⟨rst, rdist, new2, rq, rnew2⟩ := foldl_brandesStep_spec v rest (brandesStep v st w)
    simp only [List.foldl_cons]
    refine ⟨rst.trans sst, fun x => (rdist x).trans (sdist x), ⟨new1 ++ new2, ?_, ?_⟩⟩
    · rw [rq, sq, List.append_assoc]
    · intro y hy
      rcases List.mem_append.mp hy with h | h
      · exact snew1 y h
      · exact (sdist y).mp (rnew2 y h)

theorem brandesLoop_stack_mem (adj : Adj) (keys : List String) :
    ∀ (fuel : Nat) (st : BrandesState),
      (∀ x, (mget st.dist x).isSome → x ∈ keys) →
      (∀ w ∈ st.queue, (mget st.dist w).isSome) →
      (∀ w ∈ st.stack, w ∈ keys) →
      ∀ w ∈ (brandesLoop adj fuel st).stack, w ∈ keys
  | 0, _, _, _, hstack => hstack
  | fuel + 1, st, hds, hq, hstack => by
    simp only [brandesLoop]
    cases hqe : st.queue with
    | nil => exact hstack
    | cons v rest =>
      have hvq : v ∈ st.queue := by rw [hqe]; exact List.mem_cons_self v rest
      have hv : v ∈ keys := hds v (hq v hvq)
      obtain ⟨vst, vdist, new, vq, vnew⟩ :=
        foldl_brandesStep_spec v (adjGet adj v) { st with queue := rest, stack := st.stack ++ [v] }
      refine brandesLoop_stack_mem adj keys fuel _ ?_ ?_ ?_
      · intro x hx
        exact hds x ((vdist x).mp hx)
      · intro w hw
        rw [show brandesVisit adj v { st with queue := rest, stack := st.stack ++ [v] } =
          (adjGet adj v).foldl (brandesStep v) { st with queue := rest, stack := st.stack ++ [v] }
          from rfl] at hw
        rw [vq] at hw
        refine (vdist w).mpr ?_
        rcases List.mem_append.mp hw with h | h
        · refine hq w ?_
          rw [hqe]
          exact List.mem_cons_of_mem v h
        · exact vnew w h
      · intro w hw
        rw [show brandesVisit adj v { st with queue := rest, stack := st.stack ++ [v] } =
          (adjGet adj v).foldl (brandesStep v) { st with queue := rest, stack := st.stack ++ [v] }
          from rfl] at hw
        rw [vst] at hw
        rcases List.mem_append.mp hw with h | h
        · exact hstack w h
        · rw [List.mem_singleton] at h
          exact h ▸ hv

theorem brandesBackStep_scores_ne (preds : List (String × List String))
    (sigma : List (String × ℚ)) (s : String)
    (acc : List (String × ℚ) × List (String × ℚ)) (w j : String) (hjw : j ≠ w) :
    mget (brandesBackStep preds sigma s acc w).2 j = mget acc.2 j := by
  simp only [brandesBackStep]
  by_cases hws : w ≠ s
  · simp only [if_pos hws]
    rw [mget_mset, if_neg hjw]
  · simp only [if_neg hws]

theorem foldl_backStep_scores_notMem (preds : List (String × List String))
    (sigma : List (String × ℚ)) (s : String) (keys : List String) (j : String)
    (hj : j ∉ keys) :
    ∀ (l : List String) (acc : List (String × ℚ) × List (String × ℚ)),
      (∀ w ∈ l, w ∈ keys) →
      mget ((l.foldl (brandesBackStep preds sigma s) acc).2) j = mget acc.2 j
  | [], _, _ => rfl
  | w :: rest, acc, hl => by
    have hjw : j ≠ w := fun h => hj (h ▸ hl w (List.mem_cons_self w rest))
    simp only [List.foldl_cons]
    rw [foldl_backStep_scores_notMem preds sigma s keys j hj rest _
      (fun x hx => hl x (List.mem_cons_of_mem w hx)),
      brandesBackStep_scores_ne preds sigma s acc w j hjw]

theorem brandesLoop_then_back_scores (adj : Adj) (keys : List String) (fuel : Nat)
    (st : BrandesState) (preds : List (String × List String))
    (sigma : List (String × ℚ)) (delta0 scores : List (String × ℚ)) (s j : String)
    (hj : j ∉ keys)
    (hds : ∀ x, (mget st.dist x).isSome → x ∈ keys)
    (hq : ∀ w ∈ st.queue, (mget st.dist w).isSome)
    (hstack : ∀ w ∈ st.stack, w ∈ keys) :
    mget ((((brandesLoop adj fuel st).stack.reverse).foldl
      (brandesBackStep preds sigma s) (delta0, scores)).2) j = mget scores j := by
  rw [foldl_backStep_scores_notMem preds sigma s keys j hj _ _
    (fun w hw => brandesLoop_stack_mem adj keys fuel st hds hq hstack w
      (List.mem_reverse.mp hw))]

theorem mget_brandesSource_notMem (adj : Adj) (keys : List String)
    (scores : List (String × ℚ)) (s j : String) (hs : s ∈ keys) (hj : j ∉ keys) :
    mget (brandesSource adj keys scores s) j = mget scores j := by
  simp only [brandesSource]
  refine brandesLoop_then_back_scores adj keys _ _ _ _ _ scores s j hj ?_ ?_ ?_
  · intro x hx
    simp only at hx
    rw [mget_mset] at hx
    by_cases hxs : x = s
    · exact hxs ▸ hs
    · rw [if_neg hxs] at hx
      by_contra hc
      rw [mget_foldl_mset_of_notMem keys (fun _ _ => (-1 : Int)) [] x hc] at hx
      simp [mget_nil] at hx
  · intro w hw
    simp only [List.mem_singleton] at hw
    subst hw
    simp only
    rw [mget_mset, if_pos rfl]
    rfl
  · intro w hw
    simp only [List.not_mem_nil] at hw

theorem foldl_brandesSource_notMem (adj : Adj) (keys : List String) (j : String)
    (hj : j ∉ keys) :
    ∀ (l : List String) (sc : List (String × ℚ)), (∀ s ∈ l, s ∈ keys) →
      mget (l.foldl (fun sc2 s => brandesSource adj keys sc2 s) sc) j = mget sc j
  | [], _, _ => rfl
  | s :: rest, sc, hl => by
    simp only [List.foldl_cons]
    rw [foldl_brandesSource_notMem adj keys j hj rest _
      (fun x hx => hl x (List.mem_cons_of_mem s hx)),
      mget_brandesSource_notMem adj keys sc s j (hl s (List.mem_cons_self s rest)) hj]

theorem mget_betweenness_of_notMem (nodes : List Node) (edges : List Edge) (j : String)
    (hj : j ∉ nodeKeysList nodes) :
    mget (betweennessCentrality nodes edges) j = none := by
  simp only [betweennessCentrality]
  rw [foldl_brandesSource_notMem _ _ j hj _ _ (fun s hs => hs),
    mget_foldl_mset_of_notMem _ _ _ j hj]
  rfl

/-! ## Claim C1 -/

/-- C1 counterexample: in the graph with declared nodes `a`, `c` and
edges `a – g`, `g – c` where `g` is a dangling key, the unique shortest
path from `a` to `c` passes through `g` (traversal does route through
the ghost), yet `betweennessCentrality` returns exactly
`{a ↦ 0, c ↦ 0}` — the path through `g` is never counted and `g` gets
no score — and `pageRank` after its default 20 iterations returns a map
with no entry for `g` at all: the rank distributed to `g` inside an
iteration is discarded, not accumulated. -/
theorem C1_counterexample :
    (shortestPath [⟨none, none, some "a", none⟩, ⟨none, none, some "c", none⟩]
      [⟨some "a", some "g", none⟩, ⟨some "g", some "c", none⟩] "a" "c").toOption =
      some ⟨"a", "c", ["a", "g", "c"]⟩ ∧
    betweennessCentrality [⟨none, none, some "a", none⟩, ⟨none, none, some "c", none⟩]
      [⟨some "a", some "g", none⟩, ⟨some "g", some "c", none⟩] = [("a", 0), ("c", 0)] ∧
    mget (pageRank [⟨none, none, some "a", none⟩, ⟨none, none, some "c", none⟩]
      [⟨some "a", some "g", none⟩, ⟨some "g", some "c", none⟩] 20 (17/20)) "g" = none := by
  refine ⟨?_, ?_, ?_⟩ <;> with_unfolding_all rfl

/-- C1 (amended): a dangling edge-endpoint key does participate in
traversal as an implicit node (breadth-first expansion reaches it and
shortest paths route through it), but it does not participate in
centrality: for every graph, every key that is not a declared node key
has no entry in the `pageRank` result after any number of iterations —
rank distributed to it within an iteration is discarded when ranks are
copied back to the declared keys — and no entry in the
`betweennessCentrality` score map, whose BFS never enqueues keys without
a distance binding. -/
theorem C1_ghosts_traversal_not_centrality (nodes : List Node) (edges : List Edge)
    (iterations : Nat) (d : ℚ) (j : String) (hj : j ∉ nodeKeysList nodes) :
    mget (pageRank nodes edges iterations d) j = none ∧
    mget (betweennessCentrality nodes edges) j = none ∧
    (bfsRounds (buildAdjacency [⟨some "a", some "g", none⟩, ⟨some "g", some "c", none⟩]) 1
      (["a"], ["a"])).1 = ["a", "g"] := by
  refine ⟨mget_pageRank_of_notMem nodes edges iterations d j hj,
    mget_betweenness_of_notMem nodes edges j hj, by with_unfolding_all rfl⟩

/-- C1 witness: the ghost key `g` of the counterexample graph is absent
from both centrality result maps, while one BFS round from `a` has
already reached it. -/
theorem C1_witness :
    mget (pageRank [⟨none, none, some "a", none⟩, ⟨none, none, some "c", none⟩]
      [⟨some "a", some "g", none⟩, ⟨some "g", some "c", none⟩] 20 (17/20)) "g" = none ∧
    mget (betweennessCentrality [⟨none, none, some "a", none⟩, ⟨none, none, some "c", none⟩]
      [⟨some "a", some "g", none⟩, ⟨some "g", some "c", none⟩]) "g" = none ∧
    (bfsRounds (buildAdjacency [⟨some "a", some "g", none⟩, ⟨some "g", some "c", none⟩]) 1
      (["a"], ["a"])).1 = ["a", "g"] :=
  C1_ghosts_traversal_not_centrality
    [⟨none, none, some "a", none⟩, ⟨none, none, some "c", none⟩]
    [⟨some "a", some "g", none⟩, ⟨some "g", some "c", none⟩] 20 (17/20) "g" (by decide)

/-! ## Rank-sum lemmas -/

theorem rankGet_eq (m : RankMap) (j : String) : rankGet m j = (mget m j).getD 0 := rfl

theorem sumOver_congr (keys : List String) (m1 m2 : RankMap)
    (h : ∀ k ∈ keys, mget m1 k = mget m2 k) : sumOver keys m1 = sumOver keys m2 := by
  unfold sumOver
  congr 1
  exact List.map_congr_left (fun k hk => by rw [rankGet_eq, rankGet_eq, h k hk])

theorem sum_map_const_q (c : ℚ) : ∀ keys : List String,
    (keys.map (fun _ => c)).sum = (keys.length : ℚ) * c
  | [] => by simp
  | _ :: rest => by
    simp only [List.map_cons, List.sum_cons, List.length_cons, sum_map_const_q c rest]
    push_cast
    ring

theorem sumOver_of_get (keys : List String) (m : RankMap) (g : String → ℚ)
    (h : ∀ j ∈ keys, rankGet m j = g j) : sumOver keys m = (keys.map g).sum := by
  unfold sumOver
  congr 1
  exact List.map_congr_left h

theorem sumOver_cons (a : String) (rest : List String) (m : RankMap) :
    sumOver (a :: rest) m = rankGet m a + sumOver rest m := by
  simp [sumOver]

theorem sumOver_mset_mem (k : String) (v : ℚ) :
    ∀ (keys : List String) (m : RankMap), keys.Nodup → k ∈ keys →
      sumOver keys (mset m k v) = sumOver keys m + v - rankGet m k
  | [], _, _, hk => absurd hk (List.not_mem_nil k)
  | a :: rest, m, hnd, hk => by
    have hnd2 : rest.Nodup := (List.nodup_cons.mp hnd).2
    by_cases hka : k = a
    · subst hka
      have hkr : k ∉ rest := (List.nodup_cons.mp hnd).1
      have hcong : sumOver rest (mset m k v) = sumOver rest m :=
        sumOver_congr rest _ _ (fun j hj => by
          rw [mget_mset, if_neg (fun h : j = k => hkr (h ▸ hj))])
      rw [sumOver_cons, sumOver_cons, hcong,
        show rankGet (mset m k v) k = v by rw [rankGet_eq, mget_mset, if_pos rfl]; rfl]
      ring
    · have hkr : k ∈ rest := by
        rcases List.mem_cons.mp hk with h | h
        · exact absurd h hka
        · exact h
      rw [sumOver_cons, sumOver_cons,
        show rankGet (mset m k v) a = rankGet m a by
          rw [rankGet_eq, mget_mset, if_neg (fun h : a = k => hka h.symm), rankGet_eq],
        sumOver_mset_mem k v rest m hnd2 hkr]
      ring

theorem bumpFold_spec (keys : List String) (hnd : keys.Nodup) (base add : ℚ) :
    ∀ (ns : List String) (m : RankMap), (∀ n ∈ ns, n ∈ keys) →
      (∀ j ∈ keys, (mget m j).isSome) →
      sumOver keys (ns.foldl (fun m2 n =>
        match mget m2 n with
        | some v => mset m2 n (v + add)
        | none => mset m2 n (base + add)) m) = sumOver keys m + ns.length * add ∧
      (∀ j ∈ keys, (mget (ns.foldl (fun m2 n =>
        match mget m2 n with
        | some v => mset m2 n (v + add)
        | none => mset m2 n (base + add)) m) j).isSome)
  | [], m, _, hsupp => by
    refine ⟨by simp, hsupp⟩
  | n :: rest, m, hsub, hsupp => by
    have hn : n ∈ keys := hsub n (List.mem_cons_self n rest)
    obtain ⟨v, hv⟩ := Option.isSome_iff_exists.mp (hsupp n hn)
    have hsupp2 : ∀ j ∈ keys, (mget (mset m n (v + add)) j).isSome := by
      intro j hj
      rw [mget_mset]
      by_cases hjn : j = n
      · simp [hjn]
      · rw [if_neg hjn]
        exact hsupp j hj
    obtain ⟨ihsum, ihsupp⟩ := bumpFold_spec keys hnd base add rest (mset m n (v + add))
      (fun x hx => hsub x (List.mem_cons_of_mem n hx)) hsupp2
    simp only [List.foldl_cons, hv]
    refine ⟨?_, ihsupp⟩
    rw [ihsum, sumOver_mset_mem n (v + add) keys m hnd hn]
    have hrg : rankGet m n = v := by rw [rankGet_eq, hv]; rfl
    rw [hrg]
    simp only [List.length_cons]
    push_cast
    ring

theorem prDistribute_spec (adj : Adj) (rank : RankMap) (base d : ℚ) (k : String)
    (keys : List String) (hnd : keys.Nodup) (m : RankMap)
    (hsub : ∀ n ∈ adjGet adj k, n ∈ keys)
    (hne : adjGet adj k ≠ [])
    (hsupp : ∀ j ∈ keys, (mget m j).isSome) :
    sumOver keys (prDistribute adj rank base d k m) =
      sumOver keys m + d * rankGet rank k ∧
    (∀ j ∈ keys, (mget (prDistribute adj rank base d k m) j).isSome) := by
  have hlen : (adjGet adj k).length ≠ 0 :=
    fun h => hne (List.eq_nil_of_length_eq_zero h)
  have hlenq : ((adjGet adj k).length : ℚ) ≠ 0 := by
    exact_mod_cast hlen
  simp only [prDistribute, if_neg hlen]
  obtain ⟨hsum, hsupp2⟩ := bumpFold_spec keys hnd base
    (d * (rankGet rank k / ((adjGet adj k).length : ℚ))) (adjGet adj k) m hsub hsupp
  refine ⟨?_, hsupp2⟩
  rw [hsum]
  field_simp

theorem foldl_prDistribute_spec (adj : Adj) (rank : RankMap) (base d : ℚ)
    (keys : List String) (hnd : keys.Nodup) :
    ∀ (l : List String) (m : RankMap),
      (∀ k2 ∈ l, adjGet adj k2 ≠ [] ∧ ∀ n ∈ adjGet adj k2, n ∈ keys) →
      (∀ j ∈ keys, (mget m j).isSome) →
      sumOver keys (l.foldl (fun m2 k2 => prDistribute adj rank base d k2 m2) m) =
        sumOver keys m + d * (l.map (fun k2 => rankGet rank k2)).sum ∧
      (∀ j ∈ keys, (mget (l.foldl (fun m2 k2 => prDistribute adj rank base d k2 m2) m) j).isSome)
  | [], m, _, hsupp => by
    refine ⟨by simp, hsupp⟩
  | k2 :: rest, m, hcl, hsupp => by
    obtain ⟨hsum1, hsupp1⟩ := prDistribute_spec adj rank base d k2 keys hnd m
      (hcl k2 (List.mem_cons_self k2 rest)).2 (hcl k2 (List.mem_cons_self k2 rest)).1 hsupp
    obtain ⟨hsum2, hsupp2⟩ := foldl_prDistribute_spec adj rank base d keys hnd rest
      (prDistribute adj rank base d k2 m)
      (fun x hx => hcl x (List.mem_cons_of_mem k2 hx)) hsupp1
    simp only [List.foldl_cons]
    refine ⟨?_, hsupp2⟩
    rw [hsum2, hsum1]
    simp only [List.map_cons, List.sum_cons]
    ring

theorem prIter_sum (adj : Adj) (keys : List String) (d : ℚ) (rank : RankMap)
    (hnd : keys.Nodup) (hne : keys ≠ [])
    (hcl : ∀ k ∈ keys, adjGet adj k ≠ [] ∧ ∀ n ∈ adjGet adj k, n ∈ keys) :
    sumOver keys (prIter adj keys (keys.length : ℚ) d rank) =
      (1 - d) + d * sumOver keys rank := by
  have hlen : keys.length ≠ 0 := fun h => hne (List.eq_nil_of_length_eq_zero h)
  have hlenq : ((keys.length : ℚ)) ≠ 0 := by exact_mod_cast hlen
  simp only [prIter]
  set base := (1 - d) / (keys.length : ℚ) with hbase
  have hsupp0 : ∀ j ∈ keys, (mget (keys.foldl (fun m k => mset m k base) []) j).isSome := by
    intro j hj
    rw [mget_foldl_mset_of_mem keys (fun _ => base) [] j hj]
    rfl
  have hsum0 : sumOver keys (keys.foldl (fun m k => mset m k base) []) =
      (keys.length : ℚ) * base := by
    rw [sumOver_of_get keys _ (fun _ => base) (fun j hj => by
      rw [rankGet_eq, mget_foldl_mset_of_mem keys (fun _ => base) [] j hj]; rfl)]
    exact sum_map_const_q base keys
  obtain ⟨hsum1, _⟩ := foldl_prDistribute_spec adj rank base d keys hnd keys
    (keys.foldl (fun m k => mset m k base) []) hcl hsupp0
  have hsum2 : sumOver keys (keys.foldl (fun m k => mset m k
      ((mget (keys.foldl (fun m2 k2 => prDistribute adj rank base d k2 m2)
        (keys.foldl (fun m k => mset m k base) [])) k).getD 0)) rank) =
      sumOver keys (keys.foldl (fun m2 k2 => prDistribute adj rank base d k2 m2)
        (keys.foldl (fun m k => mset m k base) [])) := by
    rw [sumOver_of_get keys _ (fun k =>
      ((mget (keys.foldl (fun m2 k2 => prDistribute adj rank base d k2 m2)
        (keys.foldl (fun m k => mset m k base) [])) k).getD 0)) (fun j hj => by
      rw [rankGet_eq, mget_foldl_mset_of_mem keys _ rank j hj]
      rfl)]
    rfl
  rw [hsum2, hsum1, hsum0]
  have hsr : (keys.map (fun k2 => rankGet rank k2)).sum = sumOver keys rank := rfl
  rw [hsr, hbase]
  field_simp

theorem pageRank_sum_one (nodes : List Node) (edges : List Edge) (iterations : Nat) (d : ℚ)
    (hnd : (nodeKeysList nodes).Nodup)
    (hne : nodeKeysList nodes ≠ [])
    (hcl : ∀ k ∈ nodeKeysList nodes, adjGet (buildAdjacency edges) k ≠ [] ∧
      ∀ n ∈ adjGet (buildAdjacency edges) k, n ∈ nodeKeysList nodes) :
    sumOver (nodeKeysList nodes) (pageRank nodes edges iterations d) = 1 := by
  have hlen : (nodeKeysList nodes).length ≠ 0 :=
    fun h => hne (List.eq_nil_of_length_eq_zero h)
  have hlenq : (((nodeKeysList nodes).length : ℚ)) ≠ 0 := by exact_mod_cast hlen
  simp only [pageRank, if_neg hlen]
  have hinit : sumOver (nodeKeysList nodes)
      ((nodeKeysList nodes).foldl (fun m k =>
        mset m k (1 / ((nodeKeysList nodes).length : ℚ))) []) = 1 := by
    rw [sumOver_of_get _ _ (fun _ => 1 / ((nodeKeysList nodes).length : ℚ)) (fun j hj => by
      rw [rankGet_eq, mget_foldl_mset_of_mem _ _ [] j hj]; rfl),
      sum_map_const_q]
    field_simp
  have haux : ∀ (rl : List Nat) (r : RankMap), sumOver (nodeKeysList nodes) r = 1 →
      sumOver (nodeKeysList nodes) (rl.foldl (fun r2 _ =>
        prIter (buildAdjacency edges) (nodeKeysList nodes)
          ((nodeKeysList nodes).length : ℚ) d r2) r) = 1 := by
    intro rl
    induction rl with
    | nil => intro r h; exact h
    | cons x rest ih =>
      intro r h
      refine ih _ ?_
      rw [prIter_sum (buildAdjacency edges) (nodeKeysList nodes) d r hnd hne hcl, h]
      ring
  exact haux (List.range iterations) _ hinit

/-! ## Adjacency-membership lemmas -/

theorem mem_setAdd (s : List String) (x y : String) (h : y ∈ setAdd s x) :
    y ∈ s ∨ y = x := by
  unfold setAdd at h
  split at h
  · exact Or.inl h
  · rcases List.mem_append.mp h with h2 | h2
    · exact Or.inl h2
    · exact Or.inr (List.mem_singleton.mp h2)

theorem adjGet_mset_setAdd (m : Adj) (a2 b2 k : String) :
    adjGet (mset m a2 (setAdd (adjGet m a2) b2)) k =
      if k = a2 then setAdd (adjGet m a2) b2 else adjGet m k := by
  unfold adjGet
  rw [mget_mset]
  by_cases h : k = a2
  · simp [h]
  · simp [h]

theorem adjGet_adjAddEdge_mem (m : Adj) (a b : Option String) (k n : String)
    (h : n ∈ adjGet (adjAddEdge m a b) k) :
    n ∈ adjGet m k ∨
      (jsTruthy a = true ∧ jsTruthy b = true ∧ n = b.getD "") := by
  unfold adjAddEdge at h
  split at h
  · rename_i hc
    rw [Bool.and_eq_true] at hc
    rw [adjGet_mset_setAdd] at h
    by_cases hk : k = a.getD ""
    · rw [if_pos hk] at h
      rcases mem_setAdd _ _ _ h with h2 | h2
      · rw [hk]
        exact Or.inl h2
      · exact Or.inr ⟨hc.1, hc.2, h2⟩
    · rw [if_neg hk] at h
      exact Or.inl h
  · exact Or.inl h

theorem adjGet_foldl_edges_mem (k n : String) :
    ∀ (edges : List Edge) (m : Adj),
      n ∈ adjGet (edges.foldl
        (fun m2 e => adjAddEdge (adjAddEdge m2 e.from_ e.to_) e.to_ e.from_) m) k →
      n ∈ adjGet m k ∨ ∃ e ∈ edges, jsTruthy e.from_ = true ∧ jsTruthy e.to_ = true ∧
        (n = e.from_.getD "" ∨ n = e.to_.getD "")
  | [], _, h => Or.inl h
  | e :: rest, m, h => by
    rcases adjGet_foldl_edges_mem k n rest _ h with h2 | ⟨e2, he2, hf2, ht2, hor2⟩
    · rcases adjGet_adjAddEdge_mem _ e.to_ e.from_ k n h2 with h3 | ⟨ht, hf, hn⟩
      · rcases adjGet_adjAddEdge_mem m e.from_ e.to_ k n h3 with h4 | ⟨hf, ht, hn⟩
        · exact Or.inl h4
        · exact Or.inr ⟨e, List.mem_cons_self e rest, hf, ht, Or.inr hn⟩
      · exact Or.inr ⟨e, List.mem_cons_self e rest, hf, ht, Or.inl hn⟩
    · exact Or.inr ⟨e2, List.mem_cons_of_mem e he2, hf2, ht2, hor2⟩

theorem adjGet_buildAdjacency_mem (edges : List Edge) (k n : String)
    (h : n ∈ adjGet (buildAdjacency edges) k) :
    ∃ e ∈ edges, jsTruthy e.from_ = true ∧ jsTruthy e.to_ = true ∧
      (n = e.from_.getD "" ∨ n = e.to_.getD "") := by
  rcases adjGet_foldl_edges_mem k n edges [] h with h2 | h2
  · exact absurd h2 (List.not_mem_nil n)
  · exact h2

/-! ## Claim C3 -/

/-- C3 counterexample: the three-node graph `a`, `b`, `c` with the single
edge `a – b` has unique declared keys and no dangling edge endpoint, and
starts from the uniform rank `1/3`; after one iteration the isolated
node `c` has distributed none of its rank (its neighbour loop is empty),
so the ranks sum to `43/60 ≈ 0.7167`, not approximately `1`. -/
theorem C3_counterexample :
    (nodeKeysList [⟨none, none, some "a", none⟩, ⟨none, none, some "b", none⟩,
      ⟨none, none, some "c", none⟩]).Nodup ∧
    (∀ e ∈ [(⟨some "a", some "b", none⟩ : Edge)], jsTruthy e.from_ = true →
      jsTruthy e.to_ = true →
      e.from_.getD "" ∈ nodeKeysList [⟨none, none, some "a", none⟩,
        ⟨none, none, some "b", none⟩, ⟨none, none, some "c", none⟩] ∧
      e.to_.getD "" ∈ nodeKeysList [⟨none, none, some "a", none⟩,
        ⟨none, none, some "b", none⟩, ⟨none, none, some "c", none⟩]) ∧
    sumOver (nodeKeysList [⟨none, none, some "a", none⟩, ⟨none, none, some "b", none⟩,
      ⟨none, none, some "c", none⟩])
      (pageRank [⟨none, none, some "a", none⟩, ⟨none, none, some "b", none⟩,
        ⟨none, none, some "c", none⟩] [⟨some "a", some "b", none⟩] 1 (17/20)) = 43/60 ∧
    (43/60 : ℚ) ≠ 1 := by
  refine ⟨by decide, by decide, by with_unfolding_all rfl, by norm_num⟩

/-- C3 (amended): for every graph with unique declared keys, at least one
declared node, no dangling edge endpoint, and no isolated declared node
(every declared key has a non-empty adjacency set), the exact rational
sum of the PageRank values over the declared nodes equals `1` after any
number of iterations, for any damping factor; without the
no-isolated-node condition the sum decays, because an isolated node
distributes none of its rank. -/
theorem C3_pagerank_conservation (nodes : List Node) (edges : List Edge)
    (iterations : Nat) (d : ℚ)
    (hnd : (nodeKeysList nodes).Nodup)
    (hne : nodeKeysList nodes ≠ [])
    (hdang : ∀ e ∈ edges, jsTruthy e.from_ = true → jsTruthy e.to_ = true →
      e.from_.getD "" ∈ nodeKeysList nodes ∧ e.to_.getD "" ∈ nodeKeysList nodes)
    (hiso : ∀ k ∈ nodeKeysList nodes, adjGet (buildAdjacency edges) k ≠ []) :
    sumOver (nodeKeysList nodes) (pageRank nodes edges iterations d) = 1 := by
  refine pageRank_sum_one nodes edges iterations d hnd hne (fun k hk => ⟨hiso k hk, ?_⟩)
  intro n hn
  obtain ⟨e, he, hf, ht, hor⟩ := adjGet_buildAdjacency_mem edges k n hn
  rcases hor with h | h
  · exact h ▸ (hdang e he hf ht).1
  · exact h ▸ (hdang e he hf ht).2

/-- C3 witness: on the two-node graph `a – b`, which has no dangling and
no isolated key, the ranks sum to exactly `1` after twenty iterations. -/
theorem C3_witness :
    sumOver (nodeKeysList [⟨none, none, some "a", none⟩, ⟨none, none, some "b", none⟩])
      (pageRank [⟨none, none, some "a", none⟩, ⟨none, none, some "b", none⟩]
        [⟨some "a", some "b", none⟩] 20 (17/20)) = 1 :=
  C3_pagerank_conservation [⟨none, none, some "a", none⟩, ⟨none, none, some "b", none⟩]
    [⟨some "a", some "b", none⟩] 20 (17/20) (by decide) (by decide) (by decide) (by decide)

/-! ## Small map and adjacency facts for the BFS proof -/

theorem mhas_iff_mget {α : Type} (m : List (String × α)) (j : String) :
    mhas m j = true ↔ (mget m j).isSome := by
  unfold mhas mget
  rw [List.any_eq_true]
  constructor
  · rintro ⟨x, hx, hbeq⟩
    have hs : (m.find? (fun p => p.1 == j)).isSome := List.find?_isSome.mpr ⟨x, hx, hbeq⟩
    cases hf : m.find? (fun p => p.1 == j) with
    | none => rw [hf] at hs; cases hs
    | some p => simp [hf]
  · intro h
    cases hf : m.find? (fun p => p.1 == j) with
    | none => rw [hf] at h; cases h
    | some p =>
      have hp := List.find?_some hf
      exact ⟨p, List.mem_of_find?_eq_some hf, hp⟩

theorem mhas_mset_iff {α : Type} (m : List (String × α)) (k : String) (v : α) (j : String) :
    mhas (mset m k v) j = true ↔ j = k ∨ mhas m j = true := by
  rw [mhas_iff_mget, mhas_iff_mget, mget_mset]
  by_cases h : j = k
  · simp [h]
  · simp [h]

theorem mset_length_of_unbound {α : Type} :
    ∀ (m : List (String × α)) (k : String) (v : α), mget m k = none →
      (mset m k v).length = m.length + 1
  | [], _, _, _ => rfl
  | p :: rest, k, v, h => by
    have hpk : p.1 ≠ k := by
      intro hc
      rw [mget_cons, if_pos hc] at h
      cases h
    simp only [mset, if_neg hpk, List.length_cons]
    rw [mset_length_of_unbound rest k v (by rw [mget_cons, if_neg hpk] at h; exact h)]

theorem adjGet_cons (p : String × List String) (rest : Adj) (k : String) :
    adjGet (p :: rest) k = if p.1 = k then p.2 else adjGet rest k := by
  unfold adjGet
  rw [mget_cons]
  by_cases h : p.1 = k
  · simp [h]
  · simp [h]

theorem setAdd_length (s : List String) (x : String) :
    (setAdd s x).length ≤ s.length + 1 := by
  unfold setAdd
  split
  · omega
  · simp

theorem setAdd_subset (s : List String) (x y : String) (h : y ∈ setAdd s x) :
    y ∈ s ∨ y = x := mem_setAdd s x y h

theorem adjTargets_cons (p : String × List String) (rest : Adj) :
    adjTargets (p :: rest) = p.2 ++ adjTargets rest := by
  simp [adjTargets]

theorem adjGet_subset_targets (adj : Adj) (k : String) :
    ∀ y ∈ adjGet adj k, y ∈ adjTargets adj := by
  intro y hy
  unfold adjGet at hy
  cases hm : mget adj k with
  | none => rw [hm] at hy; cases hy
  | some l =>
    rw [hm] at hy
    simp only [Option.getD_some] at hy
    unfold mget at hm
    obtain ⟨p, hfind⟩ : ∃ p, adj.find? (fun p => p.1 == k) = some p := by
      cases hf : adj.find? (fun p => p.1 == k) with
      | none => rw [hf] at hm; cases hm
      | some p => exact ⟨p, rfl⟩
    have hpm : p ∈ adj := List.mem_of_find?_eq_some hfind
    have hpl : p.2 = l := by
      rw [hfind] at hm
      simpa using hm
    refine List.mem_flatten.mpr ⟨p.2, List.mem_map_of_mem Prod.snd hpm, hpl ▸ hy⟩

theorem mem_adjTargets_mset (k : String) (l : List String) (y : String) :
    ∀ m : Adj, y ∈ adjTargets (mset m k l) → y ∈ adjTargets m ∨ y ∈ l
  | [], hy => by
    simp only [mset, adjTargets_cons] at hy
    rcases List.mem_append.mp hy with h | h
    · exact Or.inr h
    · simp [adjTargets] at h
  | p :: rest, hy => by
    by_cases hpk : p.1 = k
    · simp only [mset, if_pos hpk, adjTargets_cons] at hy
      rcases List.mem_append.mp hy with h | h
      · exact Or.inr h
      · rw [adjTargets_cons]
        exact Or.inl (List.mem_append.mpr (Or.inr h))
    · simp only [mset, if_neg hpk, adjTargets_cons] at hy
      rcases List.mem_append.mp hy with h | h
      · rw [adjTargets_cons]
        exact Or.inl (List.mem_append.mpr (Or.inl h))
      · rcases mem_adjTargets_mset k l y rest h with h2 | h2
        · rw [adjTargets_cons]
          exact Or.inl (List.mem_append.mpr (Or.inr h2))
        · exact Or.inr h2

theorem adjTargets_mset_length (k : String) (v : String) :
    ∀ m : Adj, (adjTargets (mset m k (setAdd (adjGet m k) v))).length ≤
      (adjTargets m).length + 1
  | [] => by
    simp [mset, adjTargets, adjGet, mget, setAdd]
  | p :: rest => by
    by_cases hpk : p.1 = k
    · simp only [mset, if_pos hpk, adjTargets_cons, List.length_append]
      have h1 : adjGet (p :: rest) k = p.2 := by rw [adjGet_cons, if_pos hpk]
      rw [h1]
      have h2 := setAdd_length p.2 v
      omega
    · simp only [mset, if_neg hpk, adjTargets_cons, List.length_append]
      have h1 : adjGet (p :: rest) k = adjGet rest k := by rw [adjGet_cons, if_neg hpk]
      rw [h1]
      have h2 := adjTargets_mset_length k v rest
      omega

theorem adjAddEdge_targets_length (m : Adj) (a b : Option String) :
    (adjTargets (adjAddEdge m a b)).length ≤ (adjTargets m).length + 1 := by
  unfold adjAddEdge
  split
  · exact adjTargets_mset_length (a.getD "") (b.getD "") m
  · omega

theorem buildAdjacency_targets_length :
    ∀ (edges : List Edge) (m : Adj),
      (adjTargets (edges.foldl
        (fun m2 e => adjAddEdge (adjAddEdge m2 e.from_ e.to_) e.to_ e.from_) m)).length ≤
      (adjTargets m).length + 2 * edges.length
  | [], _ => by simp
  | e :: rest, m => by
    simp only [List.foldl_cons]
    have h1 := buildAdjacency_targets_length rest
      (adjAddEdge (adjAddEdge m e.from_ e.to_) e.to_ e.from_)
    have h2 := adjAddEdge_targets_length (adjAddEdge m e.from_ e.to_) e.to_ e.from_
    have h3 := adjAddEdge_targets_length m e.from_ e.to_
    simp only [List.length_cons]
    omega

theorem jsTruthy_getD_ne_empty (o : Option String) (h : jsTruthy o = true) :
    o.getD "" ≠ "" := by
  cases o with
  | none => cases h
  | some s =>
    intro hc
    simp only [Option.getD_some] at hc
    subst hc
    simp [jsTruthy] at h

theorem adjTargets_mset_ne_empty (k : String) (l : List String) (m : Adj)
    (hm : ∀ y ∈ adjTargets m, y ≠ "") (hl : ∀ y ∈ l, y ≠ "") :
    ∀ y ∈ adjTargets (mset m k l), y ≠ "" := by
  intro y hy
  rcases mem_adjTargets_mset k l y m hy with h | h
  · exact hm y h
  · exact hl y h

theorem adjAddEdge_targets_ne_empty (m : Adj) (a b : Option String)
    (hm : ∀ y ∈ adjTargets m, y ≠ "") :
    ∀ y ∈ adjTargets (adjAddEdge m a b), y ≠ "" := by
  unfold adjAddEdge
  split
  · rename_i hc
    rw [Bool.and_eq_true] at hc
    refine adjTargets_mset_ne_empty _ _ m hm ?_
    intro y hy
    rcases setAdd_subset _ _ _ hy with h | h
    · exact hm y (adjGet_subset_targets m _ y h)
    · exact h ▸ jsTruthy_getD_ne_empty b hc.2
  · exact hm

theorem buildAdjacency_targets_ne_empty :
    ∀ (edges : List Edge) (m : Adj), (∀ y ∈ adjTargets m, y ≠ "") →
      ∀ y ∈ adjTargets (edges.foldl
        (fun m2 e => adjAddEdge (adjAddEdge m2 e.from_ e.to_) e.to_ e.from_) m), y ≠ ""
  | [], _, hm => hm
  | e :: rest, m, hm => by
    simp only [List.foldl_cons]
    exact buildAdjacency_targets_ne_empty rest _
      (adjAddEdge_targets_ne_empty _ e.to_ e.from_
        (adjAddEdge_targets_ne_empty m e.from_ e.to_ hm))

/-! ## Resolved keys are never the empty string -/

theorem mhas_mset_mono {α : Type} (m : List (String × α)) (k : String) (v : α) (j : String)
    (h : mhas m j = true) : mhas (mset m k v) j = true :=
  (mhas_mset_iff m k v j).mpr (Or.inr h)

theorem mhas_ite_mset_empty (c : Bool) (m : List (String × Node)) (k : String) (n : Node)
    (hk : c = true → k ≠ "") :
    mhas (if c then mset m k n else m) "" = true → mhas m "" = true := by
  intro h
  cases c with
  | false => simpa using h
  | true =>
    rcases (mhas_mset_iff m k n "").mp (by simpa using h) with he | h2
    · exact absurd he.symm (hk rfl)
    · exact h2

theorem mhas_ite_mset_mono (c : Bool) (m : List (String × Node)) (k : String) (n : Node)
    (j : String) (h : mhas m j = true) :
    mhas (if c then mset m k n else m) j = true := by
  cases c with
  | false => simpa using h
  | true => simpa using mhas_mset_mono m k n j h

theorem take1_at_drop1_empty (s : String) (h2 : s.take 1 = "@") (h1 : s.drop 1 = "") :
    s = "@" := by
  apply String.ext
  have t2 := congrArg String.data h2
  have t1 := congrArg String.data h1
  simp only [String.data_take, String.data_drop] at t2 t1
  rw [← List.take_append_drop 1 s.data, t2, t1]
  rfl

theorem at_append_ne_empty (s : String) : ("@" ++ s) ≠ "" := by
  intro hc
  have := congrArg String.data hc
  simp [String.data_append] at this

theorem beginsAt_take (s : String) (h : beginsAt s = true) : s.take 1 = "@" := by
  unfold beginsAt at h
  exact eq_of_beq h

theorem nodeIndexStep_empty_at (m : List (String × Node)) (n : Node)
    (h : mhas m "" = true → mhas m "@" = true) :
    mhas (nodeIndexStep m n) "" = true → mhas (nodeIndexStep m n) "@" = true := by
  simp only [nodeIndexStep]
  intro h0
  by_cases c3 : (jsTruthy n.handle && beginsAt (n.handle.getD "")) = true
  · rw [if_pos c3] at h0 ⊢
    have c3b := c3
    rw [Bool.and_eq_true] at c3b
    obtain ⟨c2, cb⟩ := c3b
    rcases (mhas_mset_iff _ _ _ _).mp h0 with he | h2
    · have hat : n.handle.getD "" = "@" :=
        take1_at_drop1_empty _ (beginsAt_take _ cb) he.symm
      apply mhas_mset_mono
      rw [if_pos c2]
      exact (mhas_mset_iff _ _ _ _).mpr (Or.inl hat.symm)
    · have hm1 := mhas_ite_mset_empty (jsTruthy n.handle) _ _ n
        (fun hc => jsTruthy_getD_ne_empty n.handle hc) h2
      have hm := mhas_ite_mset_empty (jsTruthy (jsOrS n.id n.did)) m _ n
        (fun hc => jsTruthy_getD_ne_empty _ hc) hm1
      apply mhas_mset_mono
      exact mhas_ite_mset_mono _ _ _ _ _ (mhas_ite_mset_mono _ _ _ _ _ (h hm))
  · rw [if_neg c3] at h0 ⊢
    have hm1 := mhas_ite_mset_empty (jsTruthy n.handle) _ _ n
      (fun hc => jsTruthy_getD_ne_empty n.handle hc) h0
    have hm := mhas_ite_mset_empty (jsTruthy (jsOrS n.id n.did)) m _ n
      (fun hc => jsTruthy_getD_ne_empty _ hc) hm1
    exact mhas_ite_mset_mono _ _ _ _ _ (mhas_ite_mset_mono _ _ _ _ _ (h hm))

theorem foldl_nodeIndexStep_empty_at :
    ∀ (nodes : List Node) (m : List (String × Node)),
      (mhas m "" = true → mhas m "@" = true) →
      mhas (nodes.foldl nodeIndexStep m) "" = true →
      mhas (nodes.foldl nodeIndexStep m) "@" = true
  | [], _, h => h
  | n :: rest, m, h =>
    foldl_nodeIndexStep_empty_at rest (nodeIndexStep m n) (nodeIndexStep_empty_at m n h)

theorem buildNodeIndex_empty_at (nodes : List Node) :
    mhas (buildNodeIndex nodes) "" = true → mhas (buildNodeIndex nodes) "@" = true :=
  foldl_nodeIndexStep_empty_at nodes [] (fun h => by simp [mhas] at h)

theorem resolveNodeKey_ne_empty (input : String) (nodes : List Node) (k : String)
    (h : resolveNodeKey input (buildNodeIndex nodes) = some k) : k ≠ "" := by
  simp only [resolveNodeKey] at h
  by_cases hi : input = ""
  · rw [if_pos hi] at h
    cases h
  · rw [if_neg hi] at h
    by_cases h1 : mhas (buildNodeIndex nodes) input = true
    · rw [if_pos h1] at h
      injection h with hk
      exact hk ▸ hi
    · rw [if_neg h1] at h
      by_cases h2 : mhas (buildNodeIndex nodes)
          (if beginsAt input then input else "@" ++ input) = true
      · rw [if_pos h2] at h
        injection h with hk
        subst hk
        by_cases hb : beginsAt input = true
        · rw [if_pos hb]
          exact hi
        · rw [if_neg hb]
          exact at_append_ne_empty input
      · rw [if_neg h2] at h
        by_cases h3 : mhas (buildNodeIndex nodes) (stripAt input) = true
        · rw [if_pos h3] at h
          injection h with hk
          subst hk
          intro hc
          unfold stripAt at hc
          by_cases hb : beginsAt input = true
          · rw [if_pos hb] at hc
            have hin : input = "@" := take1_at_drop1_empty input (beginsAt_take input hb) hc
            rw [show stripAt input = "" by rw [stripAt, if_pos hb, hc]] at h3
            have hat := buildNodeIndex_empty_at nodes h3
            rw [if_pos hb, hin] at h2
            exact h2 hat
          · rw [if_neg hb] at hc
            exact hi hc
        · rw [if_neg h3] at h
          cases h

/-! ## BFS expansion spec -/

theorem spFold_spec (current : String) :
    ∀ (l : List String) (st : PathState),
      (∀ x, (mget st.prev x).isSome → x ∈ st.visited) →
      ∃ new : List String,
        (l.foldl (spStep current) st).visited = st.visited ++ new ∧
        (l.foldl (spStep current) st).queue = st.queue ++ new ∧
        new.Nodup ∧
        (∀ y ∈ new, y ∈ l) ∧
        (∀ y ∈ new, y ∉ st.visited) ∧
        (∀ y ∈ l, y ∈ st.visited ++ new) ∧
        (∀ x, x ∉ new → mget (l.foldl (spStep current) st).prev x = mget st.prev x) ∧
        (∀ y ∈ new, mget (l.foldl (spStep current) st).prev y = some current) ∧
        (l.foldl (spStep current) st).prev.length = st.prev.length + new.length
  | [], st, _ =>
    ⟨[], by simp, by simp, List.nodup_nil, by simp, by simp, by simp,
      fun _ _ => rfl, by simp, by simp⟩
  | n :: rest, st, hpv => by
    by_cases hn : st.visited.contains n = true
    · have hnv : n ∈ st.visited := List.elem_iff.mp hn
      have hstep : spStep current st n = st := by
        unfold spStep
        rw [if_pos hn]
      obtain ⟨new, h1, h2, h3, h4, h5, h6, h7, h8, h9⟩ := spFold_spec current rest st hpv
      rw [List.foldl_cons, hstep] at *
      refine ⟨new, h1, h2, h3, fun y hy => List.mem_cons_of_mem n (h4 y hy), h5, ?_, h7, h8, h9⟩
      intro y hy
      rcases List.mem_cons.mp hy with h | h
      · exact List.mem_append.mpr (Or.inl (h ▸ hnv))
      · exact h6 y h
    · have hnv : n ∉ st.visited := fun h => hn (List.elem_iff.mpr h)
      have hpn : mget st.prev n = none := by
        cases hpo : mget st.prev n with
        | none => rfl
        | some c => exact absurd (hpv n (by rw [hpo]; rfl)) hnv
      have hstep : spStep current st n =
          ⟨st.queue ++ [n], st.visited ++ [n], mset st.prev n current⟩ := by
        unfold spStep
        rw [if_neg hn]
      have hpv1 : ∀ x, (mget (mset st.prev n current) x).isSome → x ∈ st.visited ++ [n] := by
        intro x hx
        rw [mget_mset] at hx
        by_cases hxn : x = n
        · exact List.mem_append.mpr (Or.inr (hxn ▸ List.mem_singleton_self n))
        · rw [if_neg hxn] at hx
          exact List.mem_append.mpr (Or.inl (hpv x hx))
      obtain ⟨new2, h1, h2, h3, h4, h5, h6, h7, h8, h9⟩ :=
        spFold_spec current rest ⟨st.queue ++ [n], st.visited ++ [n], mset st.prev n current⟩ hpv1
      have hnn2 : n ∉ new2 := fun h =>
        (h5 n h) (List.mem_append.mpr (Or.inr (List.mem_singleton_self n)))
      rw [List.foldl_cons, hstep]
      have happ : st.visited ++ [n] ++ new2 = st.visited ++ (n :: new2) := by
        rw [List.append_assoc]
        rfl
      have happq : st.queue ++ [n] ++ new2 = st.queue ++ (n :: new2) := by
        rw [List.append_assoc]
        rfl
      refine ⟨n :: new2, ?_, ?_, ?_, ?_, ?_, ?_, ?_, ?_, ?_⟩
      · rw [h1]
        exact happ
      · rw [h2]
        exact happq
      · exact List.nodup_cons.mpr ⟨hnn2, h3⟩
      · intro y hy
        rcases List.mem_cons.mp hy with h | h
        · exact h ▸ List.mem_cons_self n rest
        · exact List.mem_cons_of_mem n (h4 y h)
      · intro y hy
        rcases List.mem_cons.mp hy with h | h
        · exact h ▸ hnv
        · intro hc
          exact (h5 y h) (List.mem_append.mpr (Or.inl hc))
      · intro y hy
        rcases List.mem_cons.mp hy with h | h
        · exact List.mem_append.mpr (Or.inr (h ▸ List.mem_cons_self n new2))
        · rw [← happ]
          exact h6 y h
      · intro x hx
        have hxn2 : x ∉ new2 := fun h => hx (List.mem_cons_of_mem n h)
        have hxn : x ≠ n := fun h => hx (h ▸ List.mem_cons_self n new2)
        rw [h7 x hxn2]
        simp only
        rw [mget_mset, if_neg hxn]
      · intro y hy
        rcases List.mem_cons.mp hy with h | h
        · subst h
          rw [h7 y hnn2]
          simp only
          rw [mget_mset, if_pos rfl]
        · exact h8 y h
      · rw [h9]
        simp only
        rw [mset_length_of_unbound st.prev n current hpn]
        simp only [List.length_cons]
        omega

/-! ## BFS loop invariant -/

theorem SPInv_init (adj : Adj) (fk : String) : SPInv adj fk ⟨[fk], [fk], []⟩ := by
  refine ⟨List.nodup_singleton fk, List.mem_singleton_self fk, fun x hx => hx, ?_, ?_,
    ?_, ?_, rfl, ?_⟩
  · intro x hx
    rw [List.mem_singleton.mp hx]
    exact Relation.ReflTransGen.refl
  · intro x hx
    exact Or.inl (List.mem_singleton.mp hx)
  · intro x c h
    simp [mget] at h
  · intro v hv
    exact Or.inl hv
  · intro x hx
    rw [List.mem_singleton.mp hx]
    exact List.mem_cons_self fk _

theorem spExpand_inv (adj : Adj) (fk : String) (st : PathState) (current : String)
    (rest : List String)
    (hq : st.queue = current :: rest)
    (hinv : SPInv adj fk st) :
    SPInv adj fk (spExpand adj current { st with queue := rest }) := by
  obtain ⟨hnd, hfk, hqv, hreach, hpe, hch, hcq, hpl, hb⟩ := hinv
  have hcur : current ∈ st.visited := hqv current (by rw [hq]; exact List.mem_cons_self _ _)
  have hpv : ∀ x, (mget (PathState.mk rest st.visited st.prev).prev x).isSome →
      x ∈ (PathState.mk rest st.visited st.prev).visited := by
    intro x hx
    obtain ⟨c, hc⟩ := Option.isSome_iff_exists.mp hx
    exact (hch x c hc).2.1
  obtain ⟨new, hv, hqn, hnodup, hsubl, hfresh, hcover, hpunch, hpnew, hplen2⟩ :=
    spFold_spec current (adjGet adj current) ⟨rest, st.visited, st.prev⟩ hpv
  have hres : spExpand adj current { st with queue := rest } =
      (adjGet adj current).foldl (spStep current) ⟨rest, st.visited, st.prev⟩ := rfl
  rw [hres]
  set fin := (adjGet adj current).foldl (spStep current) ⟨rest, st.visited, st.prev⟩ with hfin
  simp only at hv hqn hpunch hpnew hplen2
  refine ⟨?_, ?_, ?_, ?_, ?_, ?_, ?_, ?_, ?_⟩
  · rw [hv]
    refine List.Nodup.append hnd hnodup ?_
    intro a ha hna
    exact hfresh a hna ha
  · rw [hv]
    exact List.mem_append.mpr (Or.inl hfk)
  · intro x hx
    rw [hqn] at hx
    rw [hv]
    rcases List.mem_append.mp hx with h | h
    · exact List.mem_append.mpr (Or.inl (hqv x (by rw [hq]; exact List.mem_cons_of_mem _ h)))
    · exact List.mem_append.mpr (Or.inr h)
  · intro x hx
    rw [hv] at hx
    rcases List.mem_append.mp hx with h | h
    · exact hreach x h
    · exact Relation.ReflTransGen.tail (hreach current hcur) (hsubl x h)
  · intro x hx
    rw [hv] at hx
    rcases List.mem_append.mp hx with h | h
    · rcases hpe x h with h2 | h2
      · exact Or.inl h2
      · right
        have hxnew : x ∉ new := fun hc => hfresh x hc h
        rw [hpunch x hxnew]
        exact h2
    · right
      rw [hpnew x h]
      rfl
  · intro x c hxc
    by_cases hxnew : x ∈ new
    · have hc2 : c = current := by
        rw [hpnew x hxnew] at hxc
        injection hxc with h2
        exact h2.symm
      subst hc2
      have hxnv : x ∉ st.visited := hfresh x hxnew
      refine ⟨by rw [hv]; exact List.mem_append.mpr (Or.inl hcur),
        by rw [hv]; exact List.mem_append.mpr (Or.inr hxnew), ?_⟩
      rw [hv, List.indexOf_append_of_mem hcur, List.indexOf_append_of_not_mem hxnv]
      have h1 : st.visited.indexOf c < st.visited.length := List.indexOf_lt_length.mpr hcur
      omega
    · rw [hpunch x hxnew] at hxc
      obtain ⟨hc1, hc2, hc3⟩ := hch x c hxc
      refine ⟨by rw [hv]; exact List.mem_append.mpr (Or.inl hc1),
        by rw [hv]; exact List.mem_append.mpr (Or.inl hc2), ?_⟩
      rw [hv, List.indexOf_append_of_mem hc1, List.indexOf_append_of_mem hc2]
      exact hc3
  · intro v hv2
    rw [hv] at hv2
    rcases List.mem_append.mp hv2 with h | h
    · by_cases hvc : v = current
      · right
        intro w hw
        rw [hv]
        have := hcover w (hvc ▸ hw)
        simpa using this
      · rcases hcq v h with h2 | h2
        · rw [hq] at h2
          rcases List.mem_cons.mp h2 with h3 | h3
          · exact absurd h3 hvc
          · left
            rw [hqn]
            exact List.mem_append.mpr (Or.inl h3)
        · right
          intro w hw
          rw [hv]
          exact List.mem_append.mpr (Or.inl (h2 w hw))
    · left
      rw [hqn]
      exact List.mem_append.mpr (Or.inr h)
  · rw [hplen2, hv]
    simp only [List.length_append]
    omega
  · intro x hx
    rw [hv] at hx
    rcases List.mem_append.mp hx with h | h
    · exact hb x h
    · exact List.mem_cons_of_mem fk (adjGet_subset_targets adj current x (hsubl x h))

theorem spLoop_inv (adj : Adj) (fk toKey : String) :
    ∀ (fuel : Nat) (st : PathState), SPInv adj fk st →
      SPInv adj fk (spLoop adj toKey fuel st)
  | 0, _, h => h
  | fuel + 1, st, h => by
    simp only [spLoop]
    cases hq : st.queue with
    | nil => exact h
    | cons current rest =>
      dsimp only
      by_cases hc : current = toKey
      · rw [if_pos hc]
        exact h
      · rw [if_neg hc]
        exact spLoop_inv adj fk toKey fuel _ (spExpand_inv adj fk st current rest hq h)

theorem spLoop_end (adj : Adj) (fk toKey : String) :
    ∀ (fuel : Nat) (st : PathState), SPInv adj fk st →
      st.queue.length + ((1 + (adjTargets adj).length) - st.visited.length) < fuel →
      (spLoop adj toKey fuel st).queue = [] ∨
        ∃ rest, (spLoop adj toKey fuel st).queue = toKey :: rest
  | 0, _, _, hf => absurd hf (by omega)
  | fuel + 1, st, hinv, hf => by
    simp only [spLoop]
    cases hq : st.queue with
    | nil => exact Or.inl hq
    | cons current rest =>
      dsimp only
      by_cases hc : current = toKey
      · rw [if_pos hc]
        exact Or.inr ⟨rest, by rw [hq, hc]⟩
      · rw [if_neg hc]
        obtain ⟨hnd, hfk2, hqv, hreach, hpe, hch, hcq, hpl, hb⟩ := hinv
        have hinv2 := spExpand_inv adj fk st current rest hq
          ⟨hnd, hfk2, hqv, hreach, hpe, hch, hcq, hpl, hb⟩
        have hpv : ∀ x, (mget (PathState.mk rest st.visited st.prev).prev x).isSome →
            x ∈ (PathState.mk rest st.visited st.prev).visited := by
          intro x hx
          obtain ⟨c, hc2⟩ := Option.isSome_iff_exists.mp hx
          exact (hch x c hc2).2.1
        obtain ⟨new, hv, hqn, hnodup, hsubl, hfresh, hcover, hpunch, hpnew, hplen2⟩ :=
          spFold_spec current (adjGet adj current) ⟨rest, st.visited, st.prev⟩ hpv
        have hres : spExpand adj current { st with queue := rest } =
            (adjGet adj current).foldl (spStep current) ⟨rest, st.visited, st.prev⟩ := rfl
        refine spLoop_end adj fk toKey fuel _ hinv2 ?_
        obtain ⟨hnd2, _, _, _, _, _, _, _, hb2⟩ := hinv2
        have hlen2 : (spExpand adj current { st with queue := rest }).visited.length ≤
            1 + (adjTargets adj).length := by
          have hsp := List.Subperm.length_le (List.subperm_of_subset hnd2 hb2)
          simp only [List.length_cons] at hsp
          omega
        have hlen1 : st.visited.length ≤ 1 + (adjTargets adj).length := by
          have hsp := List.Subperm.length_le (List.subperm_of_subset hnd
            (fun x hx => hb x hx))
          simp only [List.length_cons] at hsp
          omega
        have hvlen : (spExpand adj current { st with queue := rest }).visited.length =
            st.visited.length + new.length := by
          rw [hres, hv]
          simp
        have hqlen : (spExpand adj current { st with queue := rest }).queue.length =
            rest.length + new.length := by
          rw [hres, hqn]
          simp
        have hql : st.queue.length = rest.length + 1 := by
          rw [hq]
          rfl
        omega

theorem visited_closed_of_queue_nil (adj : Adj) (fk : String) (st : PathState)
    (hinv : SPInv adj fk st) (hq : st.queue = []) :
    ∀ x, AdjReach adj fk x → x ∈ st.visited := by
  obtain ⟨_, hfk, _, _, _, _, hcq, _, _⟩ := hinv
  intro x hx
  unfold AdjReach at hx
  induction hx with
  | refl => exact hfk
  | tail hab hbc ih =>
    rename_i b c
    rcases hcq b ih with h | h
    · rw [hq] at h
      cases h
    · exact h c hbc

/-! ## Path reconstruction -/

theorem walkPrev_reaches (prev : List (String × String)) (visited : List String)
    (fk : String)
    (hvne : ∀ x ∈ visited, x ≠ "")
    (hpe : ∀ x ∈ visited, x = fk ∨ (mget prev x).isSome)
    (hch : ∀ x c, mget prev x = some c → c ∈ visited ∧ x ∈ visited ∧
      visited.indexOf c < visited.indexOf x) :
    ∀ (fuel : Nat) (cursor : String) (acc : List String),
      cursor ∈ visited → visited.indexOf cursor < fuel →
      fk ∈ walkPrev prev fuel cursor acc ∧
      ∀ y ∈ cursor :: acc, y ∈ walkPrev prev fuel cursor acc
  | 0, _, _, _, hf => absurd hf (by omega)
  | fuel + 1, cursor, acc, hcv, hf => by
    simp only [walkPrev]
    rw [if_neg (hvne cursor hcv)]
    cases hp : mget prev cursor with
    | none =>
      have hcfk : cursor = fk := by
        rcases hpe cursor hcv with h | h
        · exact h
        · rw [hp] at h
          cases h
      exact ⟨hcfk ▸ List.mem_cons_self cursor acc, fun y hy => hy⟩
    | some c =>
      obtain ⟨hcv2, _, hidx⟩ := hch cursor c hp
      have hlt : visited.indexOf c < fuel := by omega
      obtain ⟨ih1, ih2⟩ := walkPrev_reaches prev visited fk hvne hpe hch fuel c
        (cursor :: acc) hcv2 hlt
      exact ⟨ih1, fun y hy => ih2 y (List.mem_cons_of_mem c hy)⟩

theorem buildAdjacency_targets_le (edges : List Edge) :
    (adjTargets (buildAdjacency edges)).length ≤ 2 * edges.length := by
  have h := buildAdjacency_targets_length edges []
  have h0 : (adjTargets ([] : Adj)).length = 0 := rfl
  rw [h0] at h
  simpa [buildAdjacency] using h

theorem buildAdjacency_targets_ne (edges : List Edge) :
    ∀ y ∈ adjTargets (buildAdjacency edges), y ≠ "" := by
  refine buildAdjacency_targets_ne_empty edges [] ?_
  intro y hy
  simp [adjTargets] at hy

/-! ## Claim C6 -/

/-- C6: `shortestPath` fails with a node-not-found error exactly when one
of its endpoint identifiers does not resolve via any alias form; when
both endpoints resolve but lie in different connected components of the
adjacency index it returns an empty sequence as a valid result rather
than an error; and when both endpoints resolve in the same component it
returns an ordered sequence of keys that includes both endpoints. -/
theorem C6_shortest_path_spec (nodes : List Node) (edges : List Edge)
    (fromIn toIn : String) :
    ((∃ msg, shortestPath nodes edges fromIn toIn = .error msg) ↔
      (resolveNodeKey fromIn (buildNodeIndex nodes) = none ∨
        resolveNodeKey toIn (buildNodeIndex nodes) = none)) ∧
    (∀ fk tk, resolveNodeKey fromIn (buildNodeIndex nodes) = some fk →
      resolveNodeKey toIn (buildNodeIndex nodes) = some tk →
      ¬ AdjReach (buildAdjacency edges) fk tk →
      shortestPath nodes edges fromIn toIn = .ok ⟨fk, tk, []⟩) ∧
    (∀ fk tk, resolveNodeKey fromIn (buildNodeIndex nodes) = some fk →
      resolveNodeKey toIn (buildNodeIndex nodes) = some tk →
      AdjReach (buildAdjacency edges) fk tk →
      ∃ p, shortestPath nodes edges fromIn toIn = .ok ⟨fk, tk, p⟩ ∧ fk ∈ p ∧ tk ∈ p) := by
  refine ⟨⟨?_, ?_⟩, ?_, ?_⟩
  · rintro ⟨msg, hmsg⟩
    by_contra hc
    push_neg at hc
    obtain ⟨h1, h2⟩ := hc
    obtain ⟨fk, hfk⟩ := Option.ne_none_iff_exists'.mp h1
    obtain ⟨tk, htk⟩ := Option.ne_none_iff_exists'.mp h2
    simp only [shortestPath] at hmsg
    rw [hfk, htk] at hmsg
    dsimp only at hmsg
    split at hmsg
    · cases hmsg
    · cases hmsg
  · intro h
    simp only [shortestPath]
    rcases h with h | h
    · rw [h]
      exact ⟨"Node not found: " ++ fromIn, rfl⟩
    · cases hf2 : resolveNodeKey fromIn (buildNodeIndex nodes) with
      | none =>
        rw [h]
        exact ⟨"Node not found: " ++ fromIn, rfl⟩
      | some fk =>
        rw [h]
        exact ⟨"Node not found: " ++ toIn, rfl⟩
  · intro fk tk hfk htk hnr
    simp only [shortestPath]
    rw [hfk, htk]
    dsimp only
    have hinv := spLoop_inv (buildAdjacency edges) fk tk (spFuel edges)
      ⟨[fk], [fk], []⟩ (SPInv_init (buildAdjacency edges) fk)
    obtain ⟨_, _, _, hreach, _, _, _, _, _⟩ := hinv
    have htknv : tk ∉ (spLoop (buildAdjacency edges) tk (spFuel edges)
        ⟨[fk], [fk], []⟩).visited :=
      fun hmem => hnr (hreach tk hmem)
    rw [if_neg (fun hc => htknv (List.elem_iff.mp hc))]
  · intro fk tk hfk htk hr
    simp only [shortestPath]
    rw [hfk, htk]
    dsimp only
    have hinv := spLoop_inv (buildAdjacency edges) fk tk (spFuel edges)
      ⟨[fk], [fk], []⟩ (SPInv_init (buildAdjacency edges) fk)
    have htlen := buildAdjacency_targets_le edges
    have hend := spLoop_end (buildAdjacency edges) fk tk (spFuel edges)
      ⟨[fk], [fk], []⟩ (SPInv_init (buildAdjacency edges) fk) (by
        show ([fk] : List String).length +
          ((1 + (adjTargets (buildAdjacency edges)).length) -
            ([fk] : List String).length) < spFuel edges
        simp only [List.length_singleton, spFuel]
        omega)
    obtain ⟨hnd, hfkm, hqv, hreach, hpe, hch, hcq, hpl, hb⟩ := hinv
    have htkv : tk ∈ (spLoop (buildAdjacency edges) tk (spFuel edges)
        ⟨[fk], [fk], []⟩).visited := by
      rcases hend with h | ⟨rest, h⟩
      · exact visited_closed_of_queue_nil (buildAdjacency edges) fk _
          ⟨hnd, hfkm, hqv, hreach, hpe, hch, hcq, hpl, hb⟩ h tk hr
      · exact hqv tk (by rw [h]; exact List.mem_cons_self _ _)
    rw [if_pos (List.elem_iff.mpr htkv)]
    have hfne : fk ≠ "" := resolveNodeKey_ne_empty fromIn nodes fk hfk
    have hvne : ∀ x ∈ (spLoop (buildAdjacency edges) tk (spFuel edges)
        ⟨[fk], [fk], []⟩).visited, x ≠ "" := by
      intro x hx
      rcases List.mem_cons.mp (hb x hx) with h | h
      · exact h ▸ hfne
      · exact buildAdjacency_targets_ne edges x h
    have hidx : (spLoop (buildAdjacency edges) tk (spFuel edges)
        ⟨[fk], [fk], []⟩).visited.indexOf tk <
        (spLoop (buildAdjacency edges) tk (spFuel edges) ⟨[fk], [fk], []⟩).prev.length + 1 := by
      have h1 := List.indexOf_lt_length.mpr htkv
      omega
    obtain ⟨hw1, hw2⟩ := walkPrev_reaches
      (spLoop (buildAdjacency edges) tk (spFuel edges) ⟨[fk], [fk], []⟩).prev
      (spLoop (buildAdjacency edges) tk (spFuel edges) ⟨[fk], [fk], []⟩).visited
      fk hvne hpe hch
      ((spLoop (buildAdjacency edges) tk (spFuel edges) ⟨[fk], [fk], []⟩).prev.length + 1)
      tk [] htkv hidx
    exact ⟨_, rfl, hw1, hw2 tk (List.mem_cons_self tk [])⟩

/-- C6 witness: on the graph `a – g – c` with only `a` and `c` declared,
both endpoints resolve and are connected, and the returned path contains
both; on the edgeless two-node graph the same endpoints are disconnected
and the result is the empty path, not an error. -/
theorem C6_witness :
    (∃ p, shortestPath [⟨none, none, some "a", none⟩, ⟨none, none, some "c", none⟩]
      [⟨some "a", some "g", none⟩, ⟨some "g", some "c", none⟩] "a" "c" =
        .ok ⟨"a", "c", p⟩ ∧ "a" ∈ p ∧ "c" ∈ p) ∧
    shortestPath [⟨none, none, some "a", none⟩, ⟨none, none, some "c", none⟩]
      ([] : List Edge) "a" "c" = .ok ⟨"a", "c", []⟩ := by
  constructor
  · refine (C6_shortest_path_spec [⟨none, none, some "a", none⟩, ⟨none, none, some "c", none⟩]
      [⟨some "a", some "g", none⟩, ⟨some "g", some "c", none⟩] "a" "c").2.2 "a" "c"
      (by with_unfolding_all rfl) (by with_unfolding_all rfl) ?_
    have h1 : "g" ∈ adjGet (buildAdjacency
        [⟨some "a", some "g", none⟩, ⟨some "g", some "c", none⟩]) "a" := by decide
    have h2 : "c" ∈ adjGet (buildAdjacency
        [⟨some "a", some "g", none⟩, ⟨some "g", some "c", none⟩]) "g" := by decide
    exact Relation.ReflTransGen.tail (Relation.ReflTransGen.tail
      Relation.ReflTransGen.refl h1) h2
  · refine (C6_shortest_path_spec [⟨none, none, some "a", none⟩, ⟨none, none, some "c", none⟩]
      ([] : List Edge) "a" "c").2.1 "a" "c"
      (by with_unfolding_all rfl) (by with_unfolding_all rfl) ?_
    intro h
    rcases Relation.ReflTransGen.cases_head h with h2 | ⟨b, hb, _⟩
    · exact absurd h2 (by decide)
    · exact List.not_mem_nil b hb

end SocialOS
